import Mathlib

/-!
The descriptor-to-TypeScript pipeline of protoc-gen-ts-def (`main.go`).

A shallow embedding of `getMessageLocation`, `typeToTypeTS`, `getTSType`,
`createTSFile`, `generateMessageMarkdown` and `generateCode`, followed by the
properties established about them.

Conventions of the embedding.

* A Go `string` is a `List Char` (`Str`).  The only string operations of the
  source are concatenation, `strings.Split` and `strings.Replace`; they act on
  any sequence of symbols in the same way.
* A run-time panic (index or slice bound out of range) is `none`.
* A protobuf optional field is an `Option`; the generated getters (`GetName`,
  `GetType`, ...) return the default value of the field when it is absent.
* An enum of `descriptor.proto` is its `int32` value; `String()` looks the value
  up in the table of names and falls back to its decimal form.
* The writes to `os.Stderr` are diagnostics and are left out.
* Ranging over a Go map visits every entry once in an unspecified order: the
  order is an explicit argument, a list of positions among the entries, and a
  run is one whose order lists every position once.
-/

set_option autoImplicit false
set_option maxRecDepth 100000

namespace TSDef

/-- A Go string, as its sequence of symbols. -/
abbrev Str := List Char

/-! ## The `strings` package -/

/-- Model of `strings.Index(s, sep)`: the position of the first occurrence of `sep` in
`s`, `none` for Go's `-1`. -/
def Index : Str → Str → Option Nat
  | [], sep => if sep = [] then some 0 else none
  | c :: cs, sep =>
    if sep <+: c :: cs then some 0
    else (Index cs sep).map (· + 1)

/-- The loop of `strings.genSplit`: cut at the first separator, go on with what
follows it; at most `n` cuts. -/
def splitLoop : Nat → Str → Str → List Str
  | 0, s, _ => [s]
  | n + 1, s, sep =>
    match Index s sep with
    | none => [s]
    | some m => s.take m :: splitLoop n (s.drop (m + sep.length)) sep

/-- Model of `strings.Split(s, sep)`.  An empty separator explodes `s` into its symbols;
otherwise there are at most `len(s)` cuts. -/
def Split (s sep : Str) : List Str :=
  if sep = [] then s.map (fun c => [c])
  else splitLoop s.length s sep

/-- The loop of `strings.Replace` for a non-empty `old`: copy up to the next
occurrence, write `new`, go on after the occurrence; at most `n` replacements. -/
def replaceLoop : Nat → Str → Str → Str → Str
  | 0, s, _, _ => s
  | n + 1, s, old, new =>
    match Index s old with
    | none => s
    | some j => s.take j ++ new ++ replaceLoop n (s.drop (j + old.length)) old new

/-- Model of `strings.Replace(s, old, new, -1)`: every non-overlapping occurrence of
`old`, from the left, is replaced by `new`. -/
def Replace (s old new : Str) : Str :=
  if old = new then s
  else if old = [] then new ++ s.flatMap (fun c => c :: new)
  else replaceLoop s.length s old new

/-- Go slice indexing `a[i]` with a signed index. -/
def index {α : Type} (a : List α) (i : Int) : Option α :=
  if 0 ≤ i then a[i.toNat]? else none

/-- Go slicing `a[:hi]` of a slice whose capacity is its length. -/
def sliceTo {α : Type} (a : List α) (hi : Int) : Option (List α) :=
  if 0 ≤ hi ∧ hi ≤ (a.length : Int) then some (a.take hi.toNat) else none

/-! ## Descriptors (`descriptor.proto`) -/

/-- Decimal rendering of an integer, `strconv.Itoa`. -/
def Itoa (v : Int) : Str :=
  if v < 0 then '-' :: Nat.toDigits 10 v.natAbs else Nat.toDigits 10 v.toNat

/-- Name of an enum value, `proto.EnumName`: the registered name, or the
decimal form of a value that has none. -/
def EnumName (m : List (Int × Str)) (v : Int) : Str :=
  match m.lookup v with
  | some s => s
  | none => Itoa v

/-- The enum `FieldDescriptorProto_Type`, an `int32`. -/
structure FieldType where
  value : Int
  deriving DecidableEq

def FieldType.TYPE_DOUBLE : FieldType := ⟨1⟩
def FieldType.TYPE_FLOAT : FieldType := ⟨2⟩
def FieldType.TYPE_INT64 : FieldType := ⟨3⟩
def FieldType.TYPE_UINT64 : FieldType := ⟨4⟩
def FieldType.TYPE_INT32 : FieldType := ⟨5⟩
def FieldType.TYPE_FIXED64 : FieldType := ⟨6⟩
def FieldType.TYPE_FIXED32 : FieldType := ⟨7⟩
def FieldType.TYPE_BOOL : FieldType := ⟨8⟩
def FieldType.TYPE_STRING : FieldType := ⟨9⟩
def FieldType.TYPE_GROUP : FieldType := ⟨10⟩
def FieldType.TYPE_MESSAGE : FieldType := ⟨11⟩
def FieldType.TYPE_BYTES : FieldType := ⟨12⟩
def FieldType.TYPE_UINT32 : FieldType := ⟨13⟩
def FieldType.TYPE_ENUM : FieldType := ⟨14⟩
def FieldType.TYPE_SFIXED32 : FieldType := ⟨15⟩
def FieldType.TYPE_SFIXED64 : FieldType := ⟨16⟩
def FieldType.TYPE_SINT32 : FieldType := ⟨17⟩
def FieldType.TYPE_SINT64 : FieldType := ⟨18⟩

/-- The table `FieldDescriptorProto_Type_name`. -/
def FieldDescriptorProto_Type_name : List (Int × Str) :=
  [(1, "TYPE_DOUBLE".toList), (2, "TYPE_FLOAT".toList), (3, "TYPE_INT64".toList),
   (4, "TYPE_UINT64".toList), (5, "TYPE_INT32".toList), (6, "TYPE_FIXED64".toList),
   (7, "TYPE_FIXED32".toList), (8, "TYPE_BOOL".toList), (9, "TYPE_STRING".toList),
   (10, "TYPE_GROUP".toList), (11, "TYPE_MESSAGE".toList), (12, "TYPE_BYTES".toList),
   (13, "TYPE_UINT32".toList), (14, "TYPE_ENUM".toList), (15, "TYPE_SFIXED32".toList),
   (16, "TYPE_SFIXED64".toList), (17, "TYPE_SINT32".toList), (18, "TYPE_SINT64".toList)]

/-- The method `FieldDescriptorProto_Type.String()`. -/
def FieldType.String (t : FieldType) : Str :=
  EnumName FieldDescriptorProto_Type_name t.value

/-- The enum `FieldDescriptorProto_Label`, an `int32`. -/
structure FieldLabel where
  value : Int
  deriving DecidableEq

def FieldLabel.LABEL_OPTIONAL : FieldLabel := ⟨1⟩
def FieldLabel.LABEL_REQUIRED : FieldLabel := ⟨2⟩
def FieldLabel.LABEL_REPEATED : FieldLabel := ⟨3⟩

/-- The table `FieldDescriptorProto_Label_name`. -/
def FieldDescriptorProto_Label_name : List (Int × Str) :=
  [(1, "LABEL_OPTIONAL".toList), (2, "LABEL_REQUIRED".toList), (3, "LABEL_REPEATED".toList)]

/-- The method `FieldDescriptorProto_Label.String()`. -/
def FieldLabel.String (l : FieldLabel) : Str :=
  EnumName FieldDescriptorProto_Label_name l.value

/-- Model of `FieldDescriptorProto`, the fields the generator reads. -/
structure FieldDescriptorProto where
  name : Option Str
  label : Option FieldLabel
  type : Option FieldType
  typeName : Option Str
  deriving DecidableEq

def FieldDescriptorProto.GetName (f : FieldDescriptorProto) : Str := f.name.getD []

def FieldDescriptorProto.GetLabel (f : FieldDescriptorProto) : FieldLabel :=
  f.label.getD .LABEL_OPTIONAL

def FieldDescriptorProto.GetType (f : FieldDescriptorProto) : FieldType :=
  f.type.getD .TYPE_DOUBLE

def FieldDescriptorProto.GetTypeName (f : FieldDescriptorProto) : Str := f.typeName.getD []

/-! ## The type mapper -/

/-- Model of `getTSType`. -/
def getTSType (field : FieldDescriptorProto) : Option Str :=
  if field.GetType.String = "TYPE_STRING".toList then some "string".toList
  else if field.GetType.String = "TYPE_INT32".toList then some "number".toList
  else if field.GetType.String = "TYPE_MESSAGE".toList then
    let typeName := field.GetTypeName
    let depNames := Split typeName ".".toList
    index depNames ((depNames.length : Int) - 1)
  else some "any".toList

/-- Model of `typeToTypeTS`. -/
def typeToTypeTS (field : FieldDescriptorProto) : Option Str :=
  if field.GetLabel.String = "LABEL_REPEATED".toList then
    (getTSType field).map (fun t => "Array<".toList ++ t ++ ">".toList)
  else getTSType field

/-! ## Messages, files, locations -/

/-- Model of `DescriptorProto`: a name, fields and nested message definitions. -/
inductive DescriptorProto where
  | mk (name : Option Str) (field : List FieldDescriptorProto)
      (nestedType : List DescriptorProto)

def DescriptorProto.GetName : DescriptorProto → Str
  | .mk name _ _ => name.getD []

def DescriptorProto.Field : DescriptorProto → List FieldDescriptorProto
  | .mk _ field _ => field

def DescriptorProto.NestedType : DescriptorProto → List DescriptorProto
  | .mk _ _ nestedType => nestedType

/-- Model of `SourceCodeInfo_Location`: a path of `int32` and the leading comment. -/
structure Location where
  path : List Int
  leadingComments : Option Str

def Location.GetPath (l : Location) : List Int := l.path

def Location.GetLeadingComments (l : Location) : Str := l.leadingComments.getD []

/-- Model of `SourceCodeInfo`. -/
structure SourceCodeInfo where
  location : List Location

/-- Model of `FileDescriptorProto`. -/
structure FileDescriptorProto where
  name : Option Str
  messageType : List DescriptorProto
  sourceCodeInfo : Option SourceCodeInfo

def FileDescriptorProto.GetMessageType (p : FileDescriptorProto) : List DescriptorProto :=
  p.messageType

/-- Model of `proto.GetSourceCodeInfo().GetLocation()`: no locations when the info is
absent. -/
def FileDescriptorProto.GetLocations (p : FileDescriptorProto) : List Location :=
  match p.sourceCodeInfo with
  | none => []
  | some desc => desc.location

/-- Model of `plugin.CodeGeneratorRequest`. -/
structure CodeGeneratorRequest where
  fileToGenerate : List Str
  protoFile : List FileDescriptorProto

/-- Model of `plugin.CodeGeneratorResponse_File`. -/
structure ResponseFile where
  name : Option Str
  content : Option Str
  deriving DecidableEq

def ResponseFile.GetName (f : ResponseFile) : Str := f.name.getD []

def ResponseFile.GetContent (f : ResponseFile) : Str := f.content.getD []

/-- Model of `plugin.CodeGeneratorResponse`. -/
structure CodeGeneratorResponse where
  file : List ResponseFile
  deriving DecidableEq

/-- Model of `MessageLocation`. -/
structure MessageLocation where
  location : Location
  message : DescriptorProto
  comments : List Str

/-- A Go `map[string]V` as its entries, one per key. -/
abbrev GoMap (V : Type) := List (Str × V)

/-- The assignment `m[k] = v`. -/
def GoMap.set {V : Type} : GoMap V → Str → V → GoMap V
  | [], k, v => [(k, v)]
  | (k', v') :: m, k, v => if k' = k then (k, v) :: m else (k', v') :: GoMap.set m k v

/-! ## The location extractor -/

/-- One turn of the inner loop of `getMessageLocation` (lines 48-67): `none` is a
panic, `some none` a record that adds nothing, `some (some ml)` the appended
`MessageLocation`. -/
def locationStep (proto : FileDescriptorProto) (location : Location) :
    Option (Option MessageLocation) :=
  if location.GetPath.length > 2 then some none
  else
    let leadingComments := Split location.GetLeadingComments "\n".toList
    if location.GetPath.length > 1 ∧ location.GetPath[0]? = some 4 then do
      let i ← location.GetPath[1]?
      let message ← index proto.GetMessageType i
      let comments ← sliceTo leadingComments ((leadingComments.length : Int) - 1)
      some (some { location := location, message := message, comments := comments })
    else some none

/-- The inner loop of `getMessageLocation` over the location records of one
file, appending to `locationMessages`. -/
def locationLoop (proto : FileDescriptorProto) :
    List Location → List MessageLocation → Option (List MessageLocation)
  | [], locationMessages => some locationMessages
  | location :: rest, locationMessages =>
    match locationStep proto location with
    | none => none
    | some none => locationLoop proto rest locationMessages
    | some (some ml) => locationLoop proto rest (locationMessages ++ [ml])

/-- The body of the outer loop of `getMessageLocation` for one descriptor. -/
def fileMessageLocations (proto : FileDescriptorProto) : Option (List MessageLocation) :=
  locationLoop proto proto.GetLocations []

/-- The outer loop of `getMessageLocation`: `index` is the position of the
current name in `FileToGenerate`, and the descriptor is read at that same
position of `ProtoFile`. -/
def getMessageLocationLoop (request : CodeGeneratorRequest) :
    Nat → List Str → GoMap (List MessageLocation) → Option (GoMap (List MessageLocation))
  | _, [], ret => some ret
  | index, filename :: rest, ret => do
    let proto ← request.protoFile[index]?
    let locationMessages ← fileMessageLocations proto
    getMessageLocationLoop request (index + 1) rest (ret.set filename locationMessages)

/-- Model of `getMessageLocation`. -/
def getMessageLocation (request : CodeGeneratorRequest) :
    Option (GoMap (List MessageLocation)) :=
  getMessageLocationLoop request 0 request.fileToGenerate []

/-! ## The emitter -/

/-- The loops over fields (lines 125-127 with four blanks, 132-134 with
three): one line per field appended to the buffer. -/
def writeFields (indent : Str) : Str → List FieldDescriptorProto → Option Str
  | buf, [] => some buf
  | buf, field :: rest => do
    let t ← typeToTypeTS field
    writeFields indent (buf ++ (indent ++ field.GetName ++ ": ".toList ++ t ++ ";\n".toList)) rest

/-- The loop over nested messages (lines 122-130). -/
def writeNested : Str → List DescriptorProto → Option Str
  | buf, [] => some buf
  | buf, nestedMessage :: rest => do
    let buf := buf ++ ("\nexport interface  ".toList ++ nestedMessage.GetName ++ " \x7b\n".toList)
    let buf := buf ++ "// Fields\n".toList
    let buf ← writeFields "    ".toList buf nestedMessage.Field
    writeNested (buf ++ "\x7d\n\n ".toList) rest

/-- The loop over comment lines (lines 115-117). -/
def writeComments : Str → List Str → Str
  | buf, [] => buf
  | buf, comment :: rest => writeComments (buf ++ (comment ++ "\n".toList)) rest

/-- The body of the loop over messages (lines 113-136). -/
def writeMessage (buf : Str) (locationMessage : MessageLocation) : Option Str := do
  let buf := buf ++ ("\nexport interface ".toList ++ locationMessage.message.GetName
    ++ " \x7b \n".toList)
  let buf := buf ++ "/* Leading Comments\n".toList
  let buf := writeComments buf locationMessage.comments
  let buf := buf ++ "*/ \n".toList
  let buf ←
    if locationMessage.message.NestedType.length > 0 then
      writeNested (buf ++ "// Nested Messages\n".toList) locationMessage.message.NestedType
    else some buf
  let buf ← writeFields "   ".toList buf locationMessage.message.Field
  some (buf ++ "\x7d\n".toList)

/-- The loop over messages (lines 112-137). -/
def writeMessages : Str → List MessageLocation → Option Str
  | buf, [] => some buf
  | buf, locationMessage :: rest => do
    let buf ← writeMessage buf locationMessage
    writeMessages buf rest

/-- Model of `createTSFile`: the response with the new file appended. -/
def createTSFile (response : CodeGeneratorResponse) (filename : Str)
    (messages : List MessageLocation) : Option CodeGeneratorResponse := do
  let outfileName := Replace filename ".proto".toList ".ts".toList
  let buf := "// ".toList ++ outfileName ++ "\n".toList
  let content ← writeMessages buf messages
  some { file := response.file ++ [{ name := some outfileName, content := some content }] }

/-- The loop of `generateMessageMarkdown` along one visiting order of the map. -/
def markdownLoop : CodeGeneratorResponse → List (Str × List MessageLocation) →
    Option CodeGeneratorResponse
  | response, [] => some response
  | response, (filename, locationMessages) :: rest => do
    let response ← createTSFile response filename locationMessages
    markdownLoop response rest

/-- Model of `generateMessageMarkdown`.  The `range` over the map visits its
entries in the order `order`, a list of positions in the enumeration of the map. -/
def generateMessageMarkdown (request : CodeGeneratorRequest) (response : CodeGeneratorResponse)
    (order : List Nat) : Option CodeGeneratorResponse := do
  let fileLocationMessageMap ← getMessageLocation request
  markdownLoop response (order.filterMap (fun i => fileLocationMessageMap[i]?))

/-- Model of `generateCode` along a visiting order of the map: the file list is
reset, then `generateMessageMarkdown` runs. -/
def generateCode (request : CodeGeneratorRequest) (response : CodeGeneratorResponse)
    (order : List Nat) : Option CodeGeneratorResponse :=
  generateMessageMarkdown request { response with file := [] } order

/-- A visiting order of a map with `n` entries: every position once. -/
def IsVisitingOrder (n : Nat) (order : List Nat) : Prop := order.Perm (List.range n)

instance (n : Nat) (order : List Nat) : Decidable (IsVisitingOrder n order) := by
  unfold IsVisitingOrder; infer_instance

/-- The runs of `generateCode`: it completes with `response'` when the map is
built without panic and `response'` results from some visiting order of it.
Every run of the program is of this form; which visiting orders a given Go
runtime produces is not modelled. -/
def GenerateCode (request : CodeGeneratorRequest) (response response' : CodeGeneratorResponse) :
    Prop :=
  ∃ m order, getMessageLocation request = some m ∧ IsVisitingOrder m.length order ∧
    generateCode request response order = some response'

/-! ## Reading a rendered text -/

/-- The texts of the list occur in `s` one after the other, without overlap:
`s` is `a₁ ++ p₁ ++ a₂ ++ p₂ ++ ... ++ t`. -/
inductive InOrder : List Str → Str → Prop where
  | nil (s : Str) : InOrder [] s
  | cons (a p t : Str) (rest : List Str) : InOrder rest t → InOrder (p :: rest) (a ++ p ++ t)

/-- A search for the texts one after the other, each at its first occurrence
after the previous one. -/
def occursInOrder : List Str → Str → Bool
  | [], _ => true
  | p :: rest, s =>
    match Index s p with
    | none => false
    | some j => occursInOrder rest (s.drop (j + p.length))

/-! ## The `order.proto` scenario -/

/-- The nested message `Meta` with the field `ts` of type int32. -/
def metaMessage : DescriptorProto :=
  .mk (some "Meta".toList)
    [{ name := some "ts".toList, label := some .LABEL_OPTIONAL, type := some .TYPE_INT32,
       typeName := none }]
    []

/-- The message `Order`: `id` string, `items` repeated `pkg.Item`, nested `Meta`. -/
def orderMessage : DescriptorProto :=
  .mk (some "Order".toList)
    [{ name := some "id".toList, label := some .LABEL_OPTIONAL, type := some .TYPE_STRING,
       typeName := none },
     { name := some "items".toList, label := some .LABEL_REPEATED, type := some .TYPE_MESSAGE,
       typeName := some "pkg.Item".toList }]
    [metaMessage]

/-- The descriptor of `order.proto`: one location record, path `[4, 0]`. -/
def orderProto : FileDescriptorProto :=
  { name := some "order.proto".toList
    messageType := [orderMessage]
    sourceCodeInfo := some
      { location := [{ path := [4, 0], leadingComments := some "Represents an order\n".toList }] } }

/-- The request for `order.proto`. -/
def orderRequest : CodeGeneratorRequest :=
  { fileToGenerate := ["order.proto".toList], protoFile := [orderProto] }

/-- The text generated for `order.proto`. -/
def orderContent : Str :=
  ("// order.ts\n" ++
   "\nexport interface Order \x7b \n" ++
   "/* Leading Comments\n" ++
   "Represents an order\n" ++
   "*/ \n" ++
   "// Nested Messages\n" ++
   "\nexport interface  Meta \x7b\n" ++
   "// Fields\n" ++
   "    ts: number;\n" ++
   "\x7d\n\n " ++
   "   id: string;\n" ++
   "   items: Array<Item>;\n" ++
   "\x7d\n").toList

/-- Two distinct requested names with the same output name. -/
def collidingRequest : CodeGeneratorRequest :=
  { fileToGenerate := ["a.proto.proto".toList, "a.ts.proto".toList]
    protoFile := [{ name := none, messageType := [], sourceCodeInfo := none },
                  { name := none, messageType := [], sourceCodeInfo := none }] }

/-- A descriptor without messages whose only location record has path `[4, 0]`. -/
def danglingProto : FileDescriptorProto :=
  { name := some "d.proto".toList
    messageType := []
    sourceCodeInfo := some { location := [{ path := [4, 0], leadingComments := none }] } }

/-- A descriptor with one message whose only location record has path `[4, -1]`. -/
def negativeProto : FileDescriptorProto :=
  { name := some "n.proto".toList
    messageType := [.mk (some "M".toList) [] []]
    sourceCodeInfo := some { location := [{ path := [4, -1], leadingComments := none }] } }

/-! ## Depth of nesting -/

/-- A message without its nested definitions. -/
def DescriptorProto.withoutNested : DescriptorProto → DescriptorProto
  | .mk name field _ => .mk name field []

/-- A message cut below its nested messages: its name, its fields, and its
nested messages with their names and fields; what is nested in a nested
message is removed. -/
def DescriptorProto.oneLevel : DescriptorProto → DescriptorProto
  | .mk name field nestedType => .mk name field (nestedType.map DescriptorProto.withoutNested)

/-- A message location whose message is cut below its nested messages. -/
def MessageLocation.oneLevel (lm : MessageLocation) : MessageLocation :=
  { lm with message := lm.message.oneLevel }

/-! ## Requests with several descriptors -/

/-- A descriptor without messages and without source information. -/
def emptyProto (name : Str) : FileDescriptorProto :=
  { name := some name, messageType := [], sourceCodeInfo := none }

/-- A request for `a.proto` and `b.proto`, in this order. -/
def twoFileRequest : CodeGeneratorRequest :=
  { fileToGenerate := ["a.proto".toList, "b.proto".toList]
    protoFile := [emptyProto "a.proto".toList, emptyProto "b.proto".toList] }

/-- The descriptor of a file with one commented top-level message without fields. -/
def singleMessageProto (name message comment : Str) : FileDescriptorProto :=
  { name := some name
    messageType := [.mk (some message) [] []]
    sourceCodeInfo := some { location := [{ path := [4, 0], leadingComments := some comment }] } }

/-- A request for `b.proto` alone, which imports `a.proto`: `ProtoFile` lists the
imported file first, then the requested one. -/
def importRequest : CodeGeneratorRequest :=
  { fileToGenerate := ["b.proto".toList]
    protoFile := [singleMessageProto "a.proto".toList "A".toList "about A\n".toList,
                  singleMessageProto "b.proto".toList "B".toList "about B\n".toList] }

/-- The descriptor of `b.proto`, a file that declares one enum and no message:
its location records are those of the file, of the syntax statement, of the
enum and of the name of the enum; none has a path of length 2 starting with 4. -/
def enumOnlyProto : FileDescriptorProto :=
  { name := some "b.proto".toList
    messageType := []
    sourceCodeInfo := some
      { location := [{ path := [], leadingComments := none },
                     { path := [12], leadingComments := none },
                     { path := [5, 0], leadingComments := some "an enum\n".toList },
                     { path := [5, 0, 1], leadingComments := none }] } }

/-- A request for `b.proto` alone, which imports `a.proto`: `ProtoFile` lists the
imported file first, then the requested one. -/
def enumOnlyImportRequest : CodeGeneratorRequest :=
  { fileToGenerate := ["b.proto".toList]
    protoFile := [singleMessageProto "a.proto".toList "A".toList "about A\n".toList,
                  enumOnlyProto] }

/-! ## The content of a generated file -/

/-- The content of the file that `createTSFile` appends for `filename` and
`messages`. -/
def createdContent (filename : Str) (messages : List MessageLocation) : Option Str :=
  (createTSFile ⟨[]⟩ filename messages).bind (fun response =>
    response.file.getLast?.bind (fun file => file.content))

/-- The header line of the file generated for `filename`. -/
def headerLine (filename : Str) : Str :=
  "// ".toList ++ Replace filename ".proto".toList ".ts".toList ++ "\n".toList

/-! ## Facts about `Index`, `Split` and `Replace` -/

theorem Index_some_spec (sep : Str) : ∀ (s : Str) (m : Nat), Index s sep = some m →
    sep <+: s.drop m ∧ ∀ i, i < m → ¬ sep <+: s.drop i := by
  intro s
  induction s with
  | nil =>
    intro m h
    by_cases hs : sep = []
    · simp [Index, hs] at h
      subst h
      simp [hs]
    · simp [Index, hs] at h
  | cons c cs ih =>
    intro m h
    by_cases hp : sep <+: c :: cs
    · simp only [Index, hp, if_true, Option.some.injEq] at h
      subst h
      exact ⟨by simpa using hp, by intro i hi; omega⟩
    · simp only [Index, hp, if_false, Option.map_eq_some'] at h
      obtain ⟨k, hk, rfl⟩ := h
      obtain ⟨h1, h2⟩ := ih k hk
      refine ⟨by simpa using h1, ?_⟩
      intro i hi
      cases i with
      | zero => simpa using hp
      | succ j => simpa using h2 j (by omega)

theorem Index_none_spec (sep : Str) : ∀ (s : Str), Index s sep = none →
    ∀ i, i ≤ s.length → ¬ sep <+: s.drop i := by
  intro s
  induction s with
  | nil =>
    intro h i _
    by_cases hs : sep = []
    · simp [Index, hs] at h
    · simpa using hs
  | cons c cs ih =>
    intro h i hi
    by_cases hp : sep <+: c :: cs
    · simp [Index, hp] at h
    · simp only [Index, hp, if_false, Option.map_eq_none'] at h
      cases i with
      | zero => simpa using hp
      | succ j => simpa using ih h j (by simpa using hi)

theorem Index_eq_some_of_first (sep s : Str) (m : Nat) (hm : m ≤ s.length)
    (h1 : sep <+: s.drop m) (h2 : ∀ i, i < m → ¬ sep <+: s.drop i) :
    Index s sep = some m := by
  cases h : Index s sep with
  | none => exact absurd h1 (Index_none_spec sep s h m hm)
  | some k =>
    obtain ⟨k1, k2⟩ := Index_some_spec sep s k h
    rcases Nat.lt_trichotomy k m with hlt | heq | hgt
    · exact absurd k1 (h2 k hlt)
    · rw [heq]
    · exact absurd h1 (k2 m hgt)

theorem Index_some_split (sep s : Str) (m : Nat) (h : Index s sep = some m) :
    s = s.take m ++ sep ++ s.drop (m + sep.length) := by
  obtain ⟨⟨t, ht⟩, _⟩ := Index_some_spec sep s m h
  have h3 : s.drop (m + sep.length) = t := by
    have h4 : s.drop (m + sep.length) = (s.drop m).drop sep.length := by
      rw [List.drop_drop, Nat.add_comm]
    rw [h4, ← ht]
    simp
  rw [h3, List.append_assoc, ht, List.take_append_drop]

theorem Index_singleton_none (c : Char) (s : Str) (h : Index s [c] = none) : c ∉ s := by
  intro hc
  obtain ⟨a, b, rfl⟩ := List.append_of_mem hc
  refine Index_none_spec [c] _ h a.length (by simp) ?_
  simp

theorem digitChar_not_upper (d : Nat) (hd : d < 10) :
    Nat.digitChar d ≠ 'T' ∧ Nat.digitChar d ≠ 'L' := by
  interval_cases d <;> decide

theorem toDigitsCore_mem (c : Char) : ∀ (fuel n : Nat) (ds : List Char),
    c ∈ Nat.toDigitsCore 10 fuel n ds → c ∈ ds ∨ ∃ d, d < 10 ∧ c = Nat.digitChar d := by
  intro fuel
  induction fuel with
  | zero =>
    intro n ds h
    exact Or.inl h
  | succ fuel ih =>
    intro n ds h
    have hlt : n % 10 < 10 := Nat.mod_lt _ (by decide)
    rw [Nat.toDigitsCore] at h
    by_cases h0 : n / 10 = 0
    · simp only [h0, if_true] at h
      rcases List.mem_cons.mp h with h1 | h1
      · exact Or.inr ⟨_, hlt, h1⟩
      · exact Or.inl h1
    · simp only [h0, if_false] at h
      rcases ih _ _ h with h1 | h1
      · rcases List.mem_cons.mp h1 with h2 | h2
        · exact Or.inr ⟨_, hlt, h2⟩
        · exact Or.inl h2
      · exact Or.inr h1

theorem Itoa_mem (c : Char) (v : Int) (h : c ∈ Itoa v) :
    c = '-' ∨ ∃ d, d < 10 ∧ c = Nat.digitChar d := by
  unfold Itoa at h
  split_ifs at h
  · rcases List.mem_cons.mp h with h1 | h1
    · exact Or.inl h1
    · rcases toDigitsCore_mem c _ _ _ h1 with h2 | h2
      · cases h2
      · exact Or.inr h2
  · rcases toDigitsCore_mem c _ _ _ h with h2 | h2
    · cases h2
    · exact Or.inr h2

theorem lookup_mem {β : Type} : ∀ (m : List (Int × β)) (v : Int) (s : β),
    m.lookup v = some s → (v, s) ∈ m := by
  intro m
  induction m with
  | nil => intro v s h; simp at h
  | cons e m ih =>
    intro v s h
    obtain ⟨k, x⟩ := e
    by_cases hk : v = k
    · subst hk
      simp only [List.lookup, beq_self_eq_true, Option.some.injEq] at h
      rw [h]
      exact List.mem_cons_self _ _
    · have hb : (v == k) = false := by simpa using hk
      simp only [List.lookup, hb] at h
      exact List.mem_cons_of_mem _ (ih v s h)

theorem EnumName_eq_iff (m : List (Int × Str)) (k : Int) (s : Str) (v : Int)
    (hk : m.lookup k = some s) (huniq : ∀ e ∈ m, e.2 = s → e.1 = k)
    (hs : 'T' ∈ s ∨ 'L' ∈ s) : EnumName m v = s ↔ v = k := by
  constructor
  · intro h
    unfold EnumName at h
    cases hl : m.lookup v with
    | some x =>
      rw [hl] at h
      simp only at h
      subst h
      exact huniq _ (lookup_mem m v x hl) rfl
    | none =>
      rw [hl] at h
      simp only at h
      exfalso
      rcases hs with hs | hs
      · rw [← h] at hs
        rcases Itoa_mem _ _ hs with h1 | ⟨d, hd, h1⟩
        · exact absurd h1 (by decide)
        · exact (digitChar_not_upper d hd).1 h1.symm
      · rw [← h] at hs
        rcases Itoa_mem _ _ hs with h1 | ⟨d, hd, h1⟩
        · exact absurd h1 (by decide)
        · exact (digitChar_not_upper d hd).2 h1.symm
  · rintro rfl
    unfold EnumName
    rw [hk]

theorem FieldType_String_eq_STRING (t : FieldType) :
    t.String = "TYPE_STRING".toList ↔ t = .TYPE_STRING := by
  rw [FieldType.String, EnumName_eq_iff _ 9 _ _ (by decide) (by decide) (by decide)]
  cases t
  simp [FieldType.TYPE_STRING]

theorem FieldType_String_eq_INT32 (t : FieldType) :
    t.String = "TYPE_INT32".toList ↔ t = .TYPE_INT32 := by
  rw [FieldType.String, EnumName_eq_iff _ 5 _ _ (by decide) (by decide) (by decide)]
  cases t
  simp [FieldType.TYPE_INT32]

theorem FieldType_String_eq_MESSAGE (t : FieldType) :
    t.String = "TYPE_MESSAGE".toList ↔ t = .TYPE_MESSAGE := by
  rw [FieldType.String, EnumName_eq_iff _ 11 _ _ (by decide) (by decide) (by decide)]
  cases t
  simp [FieldType.TYPE_MESSAGE]

theorem FieldLabel_String_eq_REPEATED (l : FieldLabel) :
    l.String = "LABEL_REPEATED".toList ↔ l = .LABEL_REPEATED := by
  rw [FieldLabel.String, EnumName_eq_iff _ 3 _ _ (by decide) (by decide) (by decide)]
  cases l
  simp [FieldLabel.LABEL_REPEATED]

theorem index_last {α : Type} (a : List α) : index a ((a.length : Int) - 1) = a.getLast? := by
  cases a with
  | nil => simp [index]
  | cons x xs =>
    have h : ((↑(x :: xs).length : Int) - 1).toNat = (x :: xs).length - 1 := by
      simp
    have h0 : (0 : Int) ≤ (↑(x :: xs).length : Int) - 1 := by
      simp
    rw [index, if_pos h0, h, List.getLast?_eq_getElem?]

theorem splitLoop_last (sep : Str) (hsep : sep ≠ []) : ∀ (n : Nat) (s : Str), s.length ≤ n →
    ∃ r, (splitLoop n s sep).getLast? = some r ∧ Index r sep = none ∧
      (s = r ∨ ∃ p, s = p ++ sep ++ r) := by
  intro n
  induction n with
  | zero =>
    intro s hs
    have : s = [] := List.length_eq_zero.mp (Nat.le_zero.mp hs)
    subst this
    exact ⟨[], by simp [splitLoop], by simp [Index, hsep], Or.inl rfl⟩
  | succ n ih =>
    intro s hs
    cases h : Index s sep with
    | none => exact ⟨s, by simp [splitLoop, h], h, Or.inl rfl⟩
    | some m =>
      have hsplit := Index_some_split sep s m h
      have hlen : 0 < sep.length := List.length_pos.mpr hsep
      have hs' : (s.drop (m + sep.length)).length ≤ n := by
        rw [List.length_drop]; omega
      obtain ⟨r, hr1, hr2, hr3⟩ := ih (s.drop (m + sep.length)) hs'
      refine ⟨r, ?_, hr2, Or.inr ?_⟩
      · simp only [splitLoop, h]
        cases hl : splitLoop n (s.drop (m + sep.length)) sep with
        | nil => rw [hl] at hr1; simp at hr1
        | cons y ys => rw [hl] at hr1; rw [List.getLast?_cons_cons]; exact hr1
      · rcases hr3 with hr3 | ⟨p, hp⟩
        · exact ⟨s.take m, by rw [← hr3]; exact hsplit⟩
        · refine ⟨s.take m ++ sep ++ p, ?_⟩
          conv_lhs => rw [hsplit, hp]
          simp only [List.append_assoc]

theorem Split_dot_last (t : Str) :
    ∃ r, index (Split t ".".toList) (((Split t ".".toList).length : Int) - 1) = some r ∧
      '.' ∉ r ∧ (t = r ∨ ∃ p, t = p ++ ".".toList ++ r) := by
  have hsep : ".".toList ≠ [] := by decide
  obtain ⟨r, h1, h2, h3⟩ := splitLoop_last ".".toList hsep t.length t (Nat.le_refl _)
  refine ⟨r, ?_, Index_singleton_none '.' r h2, h3⟩
  rw [index_last, Split, if_neg hsep]
  exact h1

theorem getTSType_eq (field : FieldDescriptorProto) :
    getTSType field =
      if field.GetType = .TYPE_STRING then some "string".toList
      else if field.GetType = .TYPE_INT32 then some "number".toList
      else if field.GetType = .TYPE_MESSAGE then
        index (Split field.GetTypeName ".".toList)
          (((Split field.GetTypeName ".".toList).length : Int) - 1)
      else some "any".toList := by
  unfold getTSType
  simp only [FieldType_String_eq_STRING, FieldType_String_eq_INT32, FieldType_String_eq_MESSAGE]

theorem typeToTypeTS_eq (field : FieldDescriptorProto) :
    typeToTypeTS field =
      if field.GetLabel = .LABEL_REPEATED then
        (getTSType field).map (fun t => "Array<".toList ++ t ++ ">".toList)
      else getTSType field := by
  unfold typeToTypeTS
  simp only [FieldLabel_String_eq_REPEATED]

theorem getTSType_total (field : FieldDescriptorProto) : ∃ r, getTSType field = some r := by
  rw [getTSType_eq]
  split_ifs
  · exact ⟨_, rfl⟩
  · exact ⟨_, rfl⟩
  · obtain ⟨r, hr, _⟩ := Split_dot_last field.GetTypeName
    exact ⟨r, hr⟩
  · exact ⟨_, rfl⟩

theorem typeToTypeTS_total (field : FieldDescriptorProto) : ∃ r, typeToTypeTS field = some r := by
  obtain ⟨r, hr⟩ := getTSType_total field
  rw [typeToTypeTS_eq, hr]
  split_ifs
  · exact ⟨_, rfl⟩
  · exact ⟨_, rfl⟩

/-- C1: for a field whose label is not `LABEL_REPEATED`, `typeToTypeTS` returns
`string` for `TYPE_STRING`, `number` for `TYPE_INT32`, and `any` for every type
tag other than `TYPE_STRING`, `TYPE_INT32` and `TYPE_MESSAGE`, whatever the name
and the type name of the field. -/
theorem typeToTypeTS_not_repeated (field : FieldDescriptorProto)
    (h : field.GetLabel ≠ .LABEL_REPEATED) :
    (field.GetType = .TYPE_STRING → typeToTypeTS field = some "string".toList) ∧
    (field.GetType = .TYPE_INT32 → typeToTypeTS field = some "number".toList) ∧
    (field.GetType ≠ .TYPE_STRING → field.GetType ≠ .TYPE_INT32 →
      field.GetType ≠ .TYPE_MESSAGE → typeToTypeTS field = some "any".toList) := by
  rw [typeToTypeTS_eq, if_neg h, getTSType_eq]
  refine ⟨?_, ?_, ?_⟩
  · intro ht
    rw [if_pos ht]
  · intro ht
    rw [ht]
    rfl
  · intro h1 h2 h3
    rw [if_neg h1, if_neg h2, if_neg h3]

theorem typeToTypeTS_not_repeated_witness :
    (FieldDescriptorProto.mk (some "flag".toList) (some .LABEL_REQUIRED) (some .TYPE_BOOL)
        (some ".pkg.Other".toList)).GetLabel ≠ .LABEL_REPEATED ∧
    typeToTypeTS (FieldDescriptorProto.mk (some "flag".toList) (some .LABEL_REQUIRED)
        (some .TYPE_BOOL) (some ".pkg.Other".toList)) = some "any".toList :=
  ⟨by decide,
    (typeToTypeTS_not_repeated _ (by decide)).2.2 (by decide) (by decide) (by decide)⟩

/-- C2: for a field of type `TYPE_MESSAGE` with reference name `t`, `getTSType`
returns the last dot-separated segment of `t`: a string `r` without `.` such that
`t = r` or `t` ends with `.` followed by `r`; `pkg.sub.Foo` and `.pkg.sub.Foo`
both give `Foo`. -/
theorem getTSType_message_last_segment (field : FieldDescriptorProto) (t : Str)
    (hty : field.GetType = .TYPE_MESSAGE) (hname : field.typeName = some t) :
    (∃ r, getTSType field = some r ∧ '.' ∉ r ∧ (t = r ∨ ∃ p, t = p ++ ".".toList ++ r)) ∧
    (t = "pkg.sub.Foo".toList → getTSType field = some "Foo".toList) ∧
    (t = ".pkg.sub.Foo".toList → getTSType field = some "Foo".toList) := by
  have hg : getTSType field =
      index (Split t ".".toList) (((Split t ".".toList).length : Int) - 1) := by
    rw [getTSType_eq, hty, if_neg (by decide), if_neg (by decide), if_pos rfl]
    simp [FieldDescriptorProto.GetTypeName, hname]
  refine ⟨?_, ?_, ?_⟩
  · rw [hg]
    exact Split_dot_last t
  · intro ht
    rw [hg, ht]
    decide
  · intro ht
    rw [hg, ht]
    decide

theorem getTSType_message_last_segment_witness :
    ∃ r, getTSType (FieldDescriptorProto.mk (some "items".toList) (some .LABEL_REPEATED)
        (some .TYPE_MESSAGE) (some "pkg.Item".toList)) = some r ∧ '.' ∉ r ∧
      ("pkg.Item".toList = r ∨ ∃ p, "pkg.Item".toList = p ++ ".".toList ++ r) :=
  (getTSType_message_last_segment
    (FieldDescriptorProto.mk (some "items".toList) (some .LABEL_REPEATED)
      (some .TYPE_MESSAGE) (some "pkg.Item".toList)) "pkg.Item".toList rfl rfl).1

/-- C3: `typeToTypeTS` wraps the result of `getTSType` in `Array<` and `>` when the
label is `LABEL_REPEATED` and returns it unchanged otherwise; a repeated string
field gives `Array<string>`, a repeated message field referencing `pkg.sub.Foo`
gives `Array<Foo>`. -/
theorem typeToTypeTS_wraps_getTSType (field : FieldDescriptorProto) :
    (∃ r, getTSType field = some r ∧
      typeToTypeTS field = some (if field.GetLabel = .LABEL_REPEATED
        then "Array<".toList ++ r ++ ">".toList else r)) ∧
    (∀ name typeName, typeToTypeTS ⟨name, some .LABEL_REPEATED, some .TYPE_STRING, typeName⟩
      = some "Array<string>".toList) ∧
    (∀ name, typeToTypeTS
      ⟨name, some .LABEL_REPEATED, some .TYPE_MESSAGE, some "pkg.sub.Foo".toList⟩
      = some "Array<Foo>".toList) := by
  refine ⟨?_, ?_, ?_⟩
  · obtain ⟨r, hr⟩ := getTSType_total field
    refine ⟨r, hr, ?_⟩
    rw [typeToTypeTS_eq, hr]
    split_ifs <;> rfl
  · intro name typeName
    rfl
  · intro name
    rfl

theorem splitLoop_ne_nil (n : Nat) (s sep : Str) : splitLoop n s sep ≠ [] := by
  cases n with
  | zero => simp [splitLoop]
  | succ n =>
    cases h : Index s sep with
    | none => simp [splitLoop, h]
    | some m => simp [splitLoop, h]

theorem Split_newline_length_pos (s : Str) : 1 ≤ (Split s "\n".toList).length := by
  have hsep : "\n".toList ≠ [] := by decide
  rw [Split, if_neg hsep]
  exact List.length_pos.mpr (splitLoop_ne_nil _ _ _)

theorem sliceTo_length_pred {α : Type} (a : List α) (h : 1 ≤ a.length) :
    sliceTo a ((a.length : Int) - 1) = some (a.take (a.length - 1)) := by
  have h1 : (0 : Int) ≤ (a.length : Int) - 1 ∧ (a.length : Int) - 1 ≤ (a.length : Int) := by
    omega
  have h2 : ((a.length : Int) - 1).toNat = a.length - 1 := by omega
  rw [sliceTo, if_pos h1, h2]

theorem path_shape_iff (path : List Int) :
    (path.length = 2 ∧ path[0]? = some 4) ↔ ∃ i, path = [4, i] := by
  constructor
  · rintro ⟨h1, h2⟩
    match path, h1, h2 with
    | [a, b], _, h2 =>
      simp at h2
      exact ⟨b, by rw [h2]⟩
  · rintro ⟨i, rfl⟩
    simp

theorem locationStep_accepted (proto : FileDescriptorProto) (location : Location) (i : Int)
    (hp : location.GetPath = [4, i]) :
    locationStep proto location =
      (index proto.GetMessageType i).map (fun message => some
        { location := location, message := message,
          comments := (Split location.GetLeadingComments "\n".toList).take
            ((Split location.GetLeadingComments "\n".toList).length - 1) }) := by
  unfold locationStep
  rw [hp]
  simp only [List.length_cons, List.length_nil]
  rw [if_neg (by omega), if_pos (by simp)]
  rw [sliceTo_length_pred _ (Split_newline_length_pos _)]
  have h1 : ([4, i] : List Int)[1]? = some i := rfl
  simp only [h1, Option.bind_eq_bind, Option.some_bind]
  cases index proto.GetMessageType i <;> rfl

theorem locationStep_rejected (proto : FileDescriptorProto) (location : Location)
    (hp : ¬ ∃ i, location.GetPath = [4, i]) :
    locationStep proto location = some none := by
  unfold locationStep
  by_cases h2 : location.GetPath.length > 2
  · rw [if_pos h2]
  · rw [if_neg h2]
    have : ¬ (location.GetPath.length > 1 ∧ location.GetPath[0]? = some 4) := by
      rintro ⟨h3, h4⟩
      exact hp ((path_shape_iff _).mp ⟨by omega, h4⟩)
    simp only [this, if_false]

theorem index_some_iff {α : Type} (a : List α) (i : Int) :
    (∃ x, index a i = some x) ↔ (0 ≤ i ∧ i < (a.length : Int)) := by
  unfold index
  constructor
  · rintro ⟨x, hx⟩
    by_cases h0 : 0 ≤ i
    · rw [if_pos h0] at hx
      have := (List.getElem?_eq_some.mp hx).1
      omega
    · rw [if_neg h0] at hx
      cases hx
  · rintro ⟨h0, h1⟩
    rw [if_pos h0]
    have h2 : i.toNat < a.length := by omega
    exact ⟨a[i.toNat], List.getElem?_eq_getElem h2⟩

/-- C4: in the turn of the loop of `getMessageLocation` for a location record,
a record whose path has length 0, 1 or more than 2, or length 2 with
`path[0] ≠ 4`, produces no `MessageLocation` and no failure, whatever its
elements and whatever the messages of the file; a record that produces a
`MessageLocation` has a path of length exactly 2 with `path[0] = 4`, hence
`path.length ≤ 2` and `path.length = 2 → path[0] = 4`; and a record whose
message index is in range produces a `MessageLocation` if and only if its path
has length exactly 2 and `path[0] = 4`, the message being the one at that
index. -/
theorem locationStep_accepts_iff (proto : FileDescriptorProto) (location : Location) :
    (¬ (location.GetPath.length = 2 ∧ location.GetPath[0]? = some 4) →
      locationStep proto location = some none) ∧
    ((∃ ml, locationStep proto location = some (some ml)) →
      location.GetPath.length = 2 ∧ location.GetPath[0]? = some 4) ∧
    ((∃ ml, locationStep proto location = some (some ml)) →
      location.GetPath.length ≤ 2 ∧
        (location.GetPath.length = 2 → location.GetPath[0]? = some 4)) ∧
    ((∀ i, location.GetPath[1]? = some i →
        0 ≤ i ∧ i < (proto.GetMessageType.length : Int)) →
      ((∃ ml, locationStep proto location = some (some ml)) ↔
        (location.GetPath.length = 2 ∧ location.GetPath[0]? = some 4))) ∧
    (∀ i, location.GetPath = [4, i] → 0 ≤ i → i < (proto.GetMessageType.length : Int) →
      ∃ ml, locationStep proto location = some (some ml) ∧ ml.location = location ∧
        index proto.GetMessageType i = some ml.message) := by
  have hrej : ¬ (location.GetPath.length = 2 ∧ location.GetPath[0]? = some 4) →
      locationStep proto location = some none := by
    intro hp
    rw [path_shape_iff] at hp
    exact locationStep_rejected proto location hp
  have hshape : (∃ ml, locationStep proto location = some (some ml)) →
      location.GetPath.length = 2 ∧ location.GetPath[0]? = some 4 := by
    rintro ⟨ml, hml⟩
    by_contra hp
    rw [hrej hp] at hml
    cases hml
  have hacc : ∀ i, location.GetPath = [4, i] → 0 ≤ i →
      i < (proto.GetMessageType.length : Int) →
      ∃ ml, locationStep proto location = some (some ml) ∧ ml.location = location ∧
        index proto.GetMessageType i = some ml.message := by
    intro i hp h0 h1
    obtain ⟨x, hx⟩ := (index_some_iff proto.GetMessageType i).mpr ⟨h0, h1⟩
    rw [locationStep_accepted proto location i hp, hx]
    exact ⟨_, rfl, rfl, rfl⟩
  refine ⟨hrej, hshape, ?_, ?_, hacc⟩
  · intro h
    have h2 := hshape h
    exact ⟨by omega, fun _ => h2.2⟩
  · intro hidx
    constructor
    · exact hshape
    · intro hs
      obtain ⟨i, hp⟩ := (path_shape_iff _).mp hs
      obtain ⟨h0, h1⟩ := hidx i (by rw [hp]; rfl)
      obtain ⟨ml, hml, _⟩ := hacc i hp h0 h1
      exact ⟨ml, hml⟩

theorem locationStep_accepts_iff_witness :
    ¬ ((Location.mk [5, 7] (some "doc\n".toList)).GetPath.length = 2 ∧
      (Location.mk [5, 7] (some "doc\n".toList)).GetPath[0]? = some 4) ∧
    locationStep (FileDescriptorProto.mk none [DescriptorProto.mk none [] []] none)
      (Location.mk [5, 7] (some "doc\n".toList)) = some none ∧
    (∃ ml, locationStep (FileDescriptorProto.mk none [DescriptorProto.mk none [] []] none)
        (Location.mk [4, 0] (some "doc\n".toList)) = some (some ml) ∧
      ml.location = Location.mk [4, 0] (some "doc\n".toList) ∧
      index (FileDescriptorProto.mk none [DescriptorProto.mk none [] []] none).GetMessageType 0
        = some ml.message) :=
  ⟨by decide,
    (locationStep_accepts_iff (FileDescriptorProto.mk none [DescriptorProto.mk none [] []] none)
      (Location.mk [5, 7] (some "doc\n".toList))).1 (by decide),
    (locationStep_accepts_iff (FileDescriptorProto.mk none [DescriptorProto.mk none [] []] none)
      (Location.mk [4, 0] (some "doc\n".toList))).2.2.2.2 0 rfl (by decide) (by decide)⟩

theorem writeComments_eq : ∀ (comments : List Str) (buf : Str),
    writeComments buf comments = buf ++ (comments.map (fun c => c ++ "\n".toList)).flatten := by
  intro comments
  induction comments with
  | nil => intro buf; simp [writeComments]
  | cons c cs ih =>
    intro buf
    rw [writeComments, ih]
    simp [List.append_assoc]

theorem writeFields_eq (indent : Str) : ∀ (fields : List FieldDescriptorProto) (buf : Str),
    writeFields indent buf fields = some (buf ++ (fields.map (fun f =>
      indent ++ f.GetName ++ ": ".toList ++ (typeToTypeTS f).getD [] ++ ";\n".toList)).flatten) := by
  intro fields
  induction fields with
  | nil => intro buf; simp [writeFields]
  | cons f fs ih =>
    intro buf
    obtain ⟨t, ht⟩ := typeToTypeTS_total f
    rw [writeFields, ht]
    simp only [Option.bind_eq_bind, Option.some_bind]
    rw [ih]
    simp [List.append_assoc, ht]

theorem writeNested_eq : ∀ (nested : List DescriptorProto) (buf : Str),
    writeNested buf nested = some (buf ++ (nested.map (fun nm =>
      "\nexport interface  ".toList ++ nm.GetName ++ " \x7b\n".toList ++ "// Fields\n".toList ++
        (nm.Field.map (fun f => "    ".toList ++ f.GetName ++ ": ".toList ++
          (typeToTypeTS f).getD [] ++ ";\n".toList)).flatten ++ "\x7d\n\n ".toList)).flatten) := by
  intro nested
  induction nested with
  | nil => intro buf; simp [writeNested]
  | cons nm rest ih =>
    intro buf
    rw [writeNested]
    simp only [writeFields_eq, Option.bind_eq_bind, Option.some_bind]
    rw [ih]
    simp [List.append_assoc]

theorem writeMessage_eq (buf : Str) (lm : MessageLocation) :
    writeMessage buf lm = some (buf ++
      ("\nexport interface ".toList ++ lm.message.GetName ++ " \x7b \n".toList) ++
      "/* Leading Comments\n".toList ++
      (lm.comments.map (fun c => c ++ "\n".toList)).flatten ++
      "*/ \n".toList ++
      (if 0 < lm.message.NestedType.length then "// Nested Messages\n".toList else []) ++
      (lm.message.NestedType.map (fun nm =>
        "\nexport interface  ".toList ++ nm.GetName ++ " \x7b\n".toList ++ "// Fields\n".toList ++
          (nm.Field.map (fun f => "    ".toList ++ f.GetName ++ ": ".toList ++
            (typeToTypeTS f).getD [] ++ ";\n".toList)).flatten ++ "\x7d\n\n ".toList)).flatten ++
      (lm.message.Field.map (fun f => "   ".toList ++ f.GetName ++ ": ".toList ++
        (typeToTypeTS f).getD [] ++ ";\n".toList)).flatten ++
      "\x7d\n".toList) := by
  unfold writeMessage
  by_cases hn : lm.message.NestedType.length > 0
  · simp only [hn, if_true, writeNested_eq, writeComments_eq, writeFields_eq,
      Option.bind_eq_bind, Option.some_bind]
  · have hnil : lm.message.NestedType = [] := by
      cases h : lm.message.NestedType with
      | nil => rfl
      | cons a b => rw [h] at hn; simp at hn
    simp only [hn, if_false, writeComments_eq, writeFields_eq,
      Option.bind_eq_bind, Option.some_bind]
    simp [hnil, List.append_assoc]

theorem fieldLines_forall₂ (indent : Str) (fields : List FieldDescriptorProto) :
    List.Forall₂ (fun f line => ∃ t, typeToTypeTS f = some t ∧
        line = indent ++ f.GetName ++ ": ".toList ++ t ++ ";\n".toList)
      fields (fields.map (fun f => indent ++ f.GetName ++ ": ".toList ++
        (typeToTypeTS f).getD [] ++ ";\n".toList)) := by
  induction fields with
  | nil => exact List.Forall₂.nil
  | cons f fs ih =>
    refine List.Forall₂.cons ?_ ih
    obtain ⟨t, ht⟩ := typeToTypeTS_total f
    exact ⟨t, ht, by simp only [ht, Option.getD_some]⟩

/-- C5: for an accepted location record whose leading comment splits on the line
break into `k` lines, `k ≥ 1` and the `MessageLocation` carries exactly the first
`k - 1` of them in order; the text rendered for the message is the interface
header, then `/* Leading Comments`, then exactly those `k - 1` lines, each
verbatim and followed by one line break, then `*/ `. -/
theorem comments_are_all_but_last_line (proto : FileDescriptorProto) (location : Location)
    (ml : MessageLocation) (k : Nat)
    (hacc : locationStep proto location = some (some ml))
    (hk : (Split location.GetLeadingComments "\n".toList).length = k) :
    1 ≤ k ∧
    ml.comments = (Split location.GetLeadingComments "\n".toList).take (k - 1) ∧
    ml.comments.length = k - 1 ∧
    ∀ buf, ∃ rest, writeMessage buf ml = some (buf ++
      ("\nexport interface ".toList ++ ml.message.GetName ++ " \x7b \n".toList) ++
      "/* Leading Comments\n".toList ++
      (((Split location.GetLeadingComments "\n".toList).take (k - 1)).map
        (fun c => c ++ "\n".toList)).flatten ++
      "*/ \n".toList ++ rest) := by
  have hk1 : 1 ≤ k := hk ▸ Split_newline_length_pos _
  have hc : ml.comments = (Split location.GetLeadingComments "\n".toList).take (k - 1) := by
    by_cases hp : ∃ i, location.GetPath = [4, i]
    · obtain ⟨i, hi⟩ := hp
      rw [locationStep_accepted proto location i hi] at hacc
      cases hx : index proto.GetMessageType i with
      | none => rw [hx] at hacc; cases hacc
      | some x =>
        rw [hx] at hacc
        simp only [Option.map_some', Option.some.injEq] at hacc
        rw [← hacc, hk]
    · rw [locationStep_rejected proto location hp] at hacc
      cases hacc
  refine ⟨hk1, hc, ?_, ?_⟩
  · rw [hc, List.length_take, hk]
    omega
  · intro buf
    rw [writeMessage_eq, hc]
    exact ⟨_, by simp only [List.append_assoc]; rfl⟩

theorem comments_are_all_but_last_line_witness :
    locationStep (FileDescriptorProto.mk none [DescriptorProto.mk (some "M".toList) [] []] none)
        (Location.mk [4, 0] (some "a\nb\n".toList))
      = some (some ⟨Location.mk [4, 0] (some "a\nb\n".toList),
          DescriptorProto.mk (some "M".toList) [] [], ["a".toList, "b".toList]⟩) ∧
    (Split (Location.mk [4, 0] (some "a\nb\n".toList)).GetLeadingComments "\n".toList).length
      = 3 ∧
    (["a".toList, "b".toList] : List Str) =
      (Split (Location.mk [4, 0] (some "a\nb\n".toList)).GetLeadingComments "\n".toList).take
        (3 - 1) :=
  ⟨rfl, by decide,
    (comments_are_all_but_last_line
      (FileDescriptorProto.mk none [DescriptorProto.mk (some "M".toList) [] []] none)
      (Location.mk [4, 0] (some "a\nb\n".toList))
      ⟨Location.mk [4, 0] (some "a\nb\n".toList),
        DescriptorProto.mk (some "M".toList) [] [], ["a".toList, "b".toList]⟩ 3 rfl
      (by decide)).2.1⟩

/-- C8: the text rendered for a message with `n` nested message definitions
holds exactly `n` nested interface declarations, one per nested definition in
declaration order, each made of `export interface  <name> {`, one line
`<name>: <typeToTypeTS(field)>;` per field of the nested definition, and `}`;
they all stand after the comment block closed by `*/ ` and before the parent's
own field lines. -/
theorem nested_declarations_between_comments_and_fields (buf : Str) (lm : MessageLocation)
    (n : Nat) (hn : lm.message.NestedType.length = n) :
    ∃ (decls parentLines : List Str),
      decls.length = n ∧
      List.Forall₂ (fun nm decl => ∃ lines : List Str,
          List.Forall₂ (fun f line => ∃ t, typeToTypeTS f = some t ∧
            line = "    ".toList ++ f.GetName ++ ": ".toList ++ t ++ ";\n".toList)
            nm.Field lines ∧
          decl = "\nexport interface  ".toList ++ nm.GetName ++ " \x7b\n".toList ++
            "// Fields\n".toList ++ lines.flatten ++ "\x7d\n\n ".toList)
        lm.message.NestedType decls ∧
      List.Forall₂ (fun f line => ∃ t, typeToTypeTS f = some t ∧
          line = "   ".toList ++ f.GetName ++ ": ".toList ++ t ++ ";\n".toList)
        lm.message.Field parentLines ∧
      writeMessage buf lm = some (buf ++
        ("\nexport interface ".toList ++ lm.message.GetName ++ " \x7b \n".toList) ++
        "/* Leading Comments\n".toList ++
        (lm.comments.map (fun c => c ++ "\n".toList)).flatten ++
        "*/ \n".toList ++
        (if 0 < n then "// Nested Messages\n".toList else []) ++
        decls.flatten ++
        parentLines.flatten ++
        "\x7d\n".toList) := by
  refine ⟨lm.message.NestedType.map (fun nm =>
      "\nexport interface  ".toList ++ nm.GetName ++ " \x7b\n".toList ++ "// Fields\n".toList ++
        (nm.Field.map (fun f => "    ".toList ++ f.GetName ++ ": ".toList ++
          (typeToTypeTS f).getD [] ++ ";\n".toList)).flatten ++ "\x7d\n\n ".toList),
    lm.message.Field.map (fun f => "   ".toList ++ f.GetName ++ ": ".toList ++
      (typeToTypeTS f).getD [] ++ ";\n".toList),
    ?_, ?_, fieldLines_forall₂ "   ".toList lm.message.Field, ?_⟩
  rotate_right
  · rw [writeMessage_eq, hn]
  · rw [List.length_map, hn]
  · generalize lm.message.NestedType = nested
    induction nested with
    | nil => exact List.Forall₂.nil
    | cons nm rest ih =>
      exact List.Forall₂.cons ⟨_, fieldLines_forall₂ "    ".toList nm.Field, rfl⟩ ih

theorem nested_declarations_between_comments_and_fields_witness :
    (MessageLocation.mk (Location.mk [4, 0] none)
      (DescriptorProto.mk (some "P".toList) []
        [DescriptorProto.mk (some "A".toList) [] [],
         DescriptorProto.mk (some "B".toList) [] []]) []).message.NestedType.length = 2 ∧
    ∃ (decls parentLines : List Str), decls.length = 2 ∧
      writeMessage [] (MessageLocation.mk (Location.mk [4, 0] none)
        (DescriptorProto.mk (some "P".toList) []
          [DescriptorProto.mk (some "A".toList) [] [],
           DescriptorProto.mk (some "B".toList) [] []]) []) =
        some ([] ++ ("\nexport interface ".toList ++ "P".toList ++ " \x7b \n".toList) ++
          "/* Leading Comments\n".toList ++ [] ++ "*/ \n".toList ++
          "// Nested Messages\n".toList ++ decls.flatten ++ parentLines.flatten ++
          "\x7d\n".toList) :=
  ⟨rfl, by
    obtain ⟨decls, parentLines, h1, _, _, h4⟩ :=
      nested_declarations_between_comments_and_fields []
        (MessageLocation.mk (Location.mk [4, 0] none)
          (DescriptorProto.mk (some "P".toList) []
            [DescriptorProto.mk (some "A".toList) [] [],
             DescriptorProto.mk (some "B".toList) [] []]) []) 2 rfl
    exact ⟨decls, parentLines, h1, h4⟩⟩

theorem InOrder_append_left (x : Str) : ∀ (pats : List Str) (t : Str),
    InOrder pats t → InOrder pats (x ++ t) := by
  intro pats t h
  cases h with
  | nil => exact InOrder.nil _
  | cons a p t rest h =>
    have e : x ++ (a ++ p ++ t) = (x ++ a) ++ p ++ t := by simp only [List.append_assoc]
    rw [e]
    exact InOrder.cons _ _ _ _ h

theorem InOrder_cons_inv (p : Str) (rest : List Str) (s : Str) (h : InOrder (p :: rest) s) :
    ∃ a t, s = a ++ p ++ t ∧ InOrder rest t := by
  cases h with
  | cons a p t rest h => exact ⟨a, t, rfl, h⟩

theorem occursInOrder_iff : ∀ (pats : List Str) (s : Str),
    occursInOrder pats s = true ↔ InOrder pats s := by
  intro pats
  induction pats with
  | nil => intro s; simp [occursInOrder, InOrder.nil]
  | cons p rest ih =>
    intro s
    constructor
    · intro h
      cases hi : Index s p with
      | none => simp [occursInOrder, hi] at h
      | some j =>
        simp only [occursInOrder, hi] at h
        rw [Index_some_split p s j hi]
        exact InOrder.cons _ _ _ _ ((ih _).mp h)
    · intro h
      obtain ⟨a, t, rfl, ht⟩ := InOrder_cons_inv p rest s h
      have hpre : p <+: (a ++ p ++ t).drop a.length := by
        rw [List.append_assoc, List.drop_left]
        exact List.prefix_append _ _
      cases hi : Index (a ++ p ++ t) p with
      | none =>
        exact absurd hpre (Index_none_spec p _ hi a.length (by simp))
      | some j =>
        have hj : j ≤ a.length := by
          by_contra hlt
          exact (Index_some_spec p _ j hi).2 a.length (by omega) hpre
        simp only [occursInOrder, hi]
        have hd : (a ++ p ++ t).drop (j + p.length) = (a ++ p).drop (j + p.length) ++ t := by
          rw [List.drop_append_of_le_length]
          simp
          omega
        rw [hd]
        exact (ih _).mpr (InOrder_append_left _ _ _ ht)

theorem replaceLoop_nil (n : Nat) (old new : Str) (hne : old ≠ []) :
    replaceLoop n [] old new = [] := by
  cases n with
  | zero => rfl
  | succ n => simp [replaceLoop, Index, hne]

theorem Replace_only_suffix (old new p : Str) (hne : old ≠ []) (hon : old ≠ new)
    (honly : ∀ i, i < p.length → ¬ old <+: (p ++ old).drop i) :
    Replace (p ++ old) old new = p ++ new := by
  have hlen : 0 < old.length := List.length_pos.mpr hne
  have hidx : Index (p ++ old) old = some p.length := by
    apply Index_eq_some_of_first
    · simp
    · rw [List.drop_left]
    · exact honly
  rw [Replace, if_neg hon, if_neg hne]
  obtain ⟨n, hn⟩ : ∃ n, (p ++ old).length = n + 1 := ⟨p.length + old.length - 1, by
    rw [List.length_append]; omega⟩
  rw [hn, replaceLoop, hidx]
  simp only
  rw [List.take_left, ← List.length_append, List.drop_length, replaceLoop_nil _ _ _ hne]
  simp

theorem writeMessage_append (lm : MessageLocation) :
    ∃ text, ∀ buf, writeMessage buf lm = some (buf ++ text) := by
  refine ⟨("\nexport interface ".toList ++ lm.message.GetName ++ " \x7b \n".toList) ++
      "/* Leading Comments\n".toList ++
      (lm.comments.map (fun c => c ++ "\n".toList)).flatten ++
      "*/ \n".toList ++
      (if 0 < lm.message.NestedType.length then "// Nested Messages\n".toList else []) ++
      (lm.message.NestedType.map (fun nm =>
        "\nexport interface  ".toList ++ nm.GetName ++ " \x7b\n".toList ++ "// Fields\n".toList ++
          (nm.Field.map (fun f => "    ".toList ++ f.GetName ++ ": ".toList ++
            (typeToTypeTS f).getD [] ++ ";\n".toList)).flatten ++ "\x7d\n\n ".toList)).flatten ++
      (lm.message.Field.map (fun f => "   ".toList ++ f.GetName ++ ": ".toList ++
        (typeToTypeTS f).getD [] ++ ";\n".toList)).flatten ++
      "\x7d\n".toList, fun buf => ?_⟩
  rw [writeMessage_eq]
  simp only [List.append_assoc]

theorem writeMessages_eq : ∀ (messages : List MessageLocation),
    ∃ body, ∀ buf, writeMessages buf messages = some (buf ++ body) := by
  intro messages
  induction messages with
  | nil => exact ⟨[], fun buf => by simp [writeMessages]⟩
  | cons lm rest ih =>
    obtain ⟨body, hbody⟩ := ih
    obtain ⟨text, htext⟩ := writeMessage_append lm
    refine ⟨text ++ body, fun buf => ?_⟩
    rw [writeMessages, htext]
    simp only [Option.bind_eq_bind, Option.some_bind, hbody, List.append_assoc]

theorem createTSFile_eq (response : CodeGeneratorResponse) (filename : Str)
    (messages : List MessageLocation) :
    ∃ content, createTSFile response filename messages = some
      { file := response.file ++
          [{ name := some (Replace filename ".proto".toList ".ts".toList),
             content := some content }] } := by
  obtain ⟨body, hbody⟩ := writeMessages_eq messages
  refine ⟨"// ".toList ++ Replace filename ".proto".toList ".ts".toList ++ "\n".toList ++ body,
    ?_⟩
  rw [createTSFile, hbody]
  rfl

/-- C6 (as amended): for an input file name that ends with `.proto` and holds no
earlier occurrence of `.proto`, the output file appended by `createTSFile` is
named as the input with that suffix replaced by `.ts`, every other character
unchanged. -/
theorem createTSFile_name_suffix_replaced (response : CodeGeneratorResponse)
    (messages : List MessageLocation) (filename p : Str)
    (hend : filename = p ++ ".proto".toList)
    (honly : ∀ i, i < p.length → ¬ ".proto".toList <+: filename.drop i) :
    ∃ content, createTSFile response filename messages = some
      { file := response.file ++
          [{ name := some (p ++ ".ts".toList), content := some content }] } := by
  obtain ⟨content, hc⟩ := createTSFile_eq response filename messages
  refine ⟨content, ?_⟩
  rw [hc]
  subst hend
  rw [Replace_only_suffix ".proto".toList ".ts".toList p (by decide) (by decide) honly]

theorem createTSFile_name_suffix_replaced_witness :
    ∃ content, createTSFile ⟨[]⟩ "dir/a.proto".toList [] = some
      { file := [] ++ [{ name := some ("dir/a".toList ++ ".ts".toList),
                         content := some content }] } :=
  createTSFile_name_suffix_replaced ⟨[]⟩ [] "dir/a.proto".toList "dir/a".toList (by decide)
    (by decide)

/-- C6 (counterexample): the name `a.proto.proto` ends with `.proto`, and the
output file is named `a.ts.ts`, not `a.proto.ts`: the earlier occurrence of
`.proto` is replaced as well. -/
theorem createTSFile_name_replaces_every_occurrence :
    "a.proto.proto".toList = "a.proto".toList ++ ".proto".toList ∧
    (createTSFile ⟨[]⟩ "a.proto.proto".toList []).map
      (fun r => r.file.map ResponseFile.GetName) = some ["a.ts.ts".toList] ∧
    "a.ts.ts".toList ≠ "a.proto".toList ++ ".ts".toList := by
  decide

theorem GoMap.set_keys {V : Type} (k : Str) (v : V) : ∀ (m : GoMap V),
    (m.set k v).map Prod.fst =
      if k ∈ m.map Prod.fst then m.map Prod.fst else m.map Prod.fst ++ [k] := by
  intro m
  induction m with
  | nil => simp [GoMap.set]
  | cons e m ih =>
    obtain ⟨k', v'⟩ := e
    by_cases h : k' = k
    · subst h
      simp only [GoMap.set, if_true, List.map_cons, List.mem_cons, true_or]
    · have h' : ¬ k = k' := fun e => h e.symm
      simp only [GoMap.set, if_neg h, List.map_cons, ih, List.mem_cons, h', false_or]
      split_ifs <;> simp

theorem getMessageLocationLoop_keys (request : CodeGeneratorRequest) :
    ∀ (names : List Str) (index : Nat) (ret m : GoMap (List MessageLocation)),
      names.Nodup → (∀ k ∈ names, k ∉ ret.map Prod.fst) →
      getMessageLocationLoop request index names ret = some m →
      m.map Prod.fst = ret.map Prod.fst ++ names := by
  intro names
  induction names with
  | nil =>
    intro index ret m _ _ h
    simp only [getMessageLocationLoop, Option.some.injEq] at h
    simp [h]
  | cons name rest ih =>
    intro index ret m hnd hdis h
    rw [getMessageLocationLoop] at h
    cases hp : request.protoFile[index]? with
    | none => simp [hp] at h
    | some proto =>
      cases hf : fileMessageLocations proto with
      | none => simp [hp, hf] at h
      | some lms =>
        simp only [hp, hf, Option.bind_eq_bind, Option.some_bind] at h
        have hkeys : (ret.set name lms).map Prod.fst = ret.map Prod.fst ++ [name] := by
          rw [GoMap.set_keys, if_neg (hdis name (List.mem_cons_self _ _))]
        have hnd' := List.nodup_cons.mp hnd
        rw [ih (index + 1) (ret.set name lms) m hnd'.2 ?_ h, hkeys]
        · simp
        · intro k hk
          rw [hkeys]
          simp only [List.mem_append, List.mem_singleton, not_or]
          refine ⟨hdis k (List.mem_cons_of_mem _ hk), ?_⟩
          rintro rfl
          exact hnd'.1 hk

theorem markdownLoop_names : ∀ (entries : List (Str × List MessageLocation))
    (response response' : CodeGeneratorResponse),
    markdownLoop response entries = some response' →
    response'.file.map ResponseFile.GetName = response.file.map ResponseFile.GetName ++
      entries.map (fun e => Replace e.1 ".proto".toList ".ts".toList) := by
  intro entries
  induction entries with
  | nil =>
    intro response response' h
    simp only [markdownLoop, Option.some.injEq] at h
    simp [h]
  | cons e rest ih =>
    intro response response' h
    obtain ⟨filename, lms⟩ := e
    obtain ⟨content, hc⟩ := createTSFile_eq response filename lms
    rw [markdownLoop, hc] at h
    simp only [Option.bind_eq_bind, Option.some_bind] at h
    rw [ih _ _ h]
    simp [ResponseFile.GetName]

theorem filterMap_range_getElem? {α : Type} : ∀ (m : List α),
    (List.range m.length).filterMap (fun i => m[i]?) = m := by
  intro m
  induction m using List.reverseRecOn with
  | nil => rfl
  | append_singleton m a ih =>
    rw [List.length_append, List.length_singleton, List.range_succ, List.filterMap_append]
    have h1 : (List.range m.length).filterMap (fun i => (m ++ [a])[i]?) =
        (List.range m.length).filterMap (fun i => m[i]?) := by
      apply List.filterMap_congr
      intro i hi
      rw [List.getElem?_append_left (List.mem_range.mp hi)]
    rw [h1, ih]
    simp

theorem visitingOrder_perm {α : Type} (m : List α) (order : List Nat)
    (h : IsVisitingOrder m.length order) : (order.filterMap (fun i => m[i]?)).Perm m := by
  have h1 := List.Perm.filterMap (fun i => m[i]?) h
  rwa [filterMap_range_getElem?] at h1

theorem GenerateCode_names (request : CodeGeneratorRequest)
    (response response' : CodeGeneratorResponse)
    (hnodup : request.fileToGenerate.Nodup)
    (hrun : GenerateCode request response response') :
    (response'.file.map ResponseFile.GetName).Perm
      (request.fileToGenerate.map (fun name => Replace name ".proto".toList ".ts".toList)) := by
  obtain ⟨m, order, hm, hord, hgen⟩ := hrun
  rw [generateCode, generateMessageMarkdown, hm] at hgen
  simp only [Option.bind_eq_bind, Option.some_bind] at hgen
  have hnames := markdownLoop_names _ _ _ hgen
  simp only [List.map_nil, List.nil_append] at hnames
  have hkeys := getMessageLocationLoop_keys request request.fileToGenerate 0 [] m hnodup
    (by simp) hm
  simp only [List.map_nil, List.nil_append] at hkeys
  rw [hnames, ← hkeys, List.map_map]
  exact List.Perm.map _ (visitingOrder_perm m order hord)

/-- C7 (as amended): on every run of `generateCode` for a request with pairwise
distinct names in `FileToGenerate`, whatever `Response.File` held before, the
names of the response files are, up to order, the images
`replace(name, ".proto", ".ts")` of the requested names: the response holds
exactly `len(FileToGenerate)` files, a name is an output name exactly when it is
such an image, and no two response files have the same name provided no two
requested names have the same image. -/
theorem generateCode_output_names (request : CodeGeneratorRequest)
    (response response' : CodeGeneratorResponse)
    (hnodup : request.fileToGenerate.Nodup)
    (hrun : GenerateCode request response response') :
    (response'.file.map ResponseFile.GetName).Perm
      (request.fileToGenerate.map (fun name => Replace name ".proto".toList ".ts".toList)) ∧
    response'.file.length = request.fileToGenerate.length ∧
    (∀ n, n ∈ response'.file.map ResponseFile.GetName ↔
      ∃ name ∈ request.fileToGenerate, n = Replace name ".proto".toList ".ts".toList) ∧
    ((∀ a ∈ request.fileToGenerate, ∀ b ∈ request.fileToGenerate,
        Replace a ".proto".toList ".ts".toList = Replace b ".proto".toList ".ts".toList →
          a = b) →
      (response'.file.map ResponseFile.GetName).Nodup) := by
  have hperm := GenerateCode_names request response response' hnodup hrun
  refine ⟨hperm, ?_, ?_, ?_⟩
  · have := hperm.length_eq
    simpa using this
  · intro n
    rw [hperm.mem_iff, List.mem_map]
    constructor
    · rintro ⟨name, h1, h2⟩
      exact ⟨name, h1, h2.symm⟩
    · rintro ⟨name, h1, h2⟩
      exact ⟨name, h1, h2.symm⟩
  · intro hinj
    rw [hperm.nodup_iff]
    exact List.Nodup.map_on (fun a ha b hb hab => hinj a ha b hb hab) hnodup

theorem generateCode_output_names_witness :
    (CodeGeneratorRequest.mk ["x/a.proto".toList] [⟨none, [], none⟩]).fileToGenerate.Nodup ∧
    GenerateCode ⟨["x/a.proto".toList], [⟨none, [], none⟩]⟩ ⟨[⟨some "stale".toList, none⟩]⟩
      ⟨[⟨some "x/a.ts".toList, some "// x/a.ts\n".toList⟩]⟩ ∧
    ((CodeGeneratorResponse.mk [⟨some "x/a.ts".toList, some "// x/a.ts\n".toList⟩]).file.map
        ResponseFile.GetName).Perm
      (["x/a.proto".toList].map (fun name => Replace name ".proto".toList ".ts".toList)) :=
  ⟨by decide,
    ⟨[("x/a.proto".toList, [])], [0], rfl, by decide, rfl⟩,
    (generateCode_output_names ⟨["x/a.proto".toList], [⟨none, [], none⟩]⟩
      ⟨[⟨some "stale".toList, none⟩]⟩ ⟨[⟨some "x/a.ts".toList, some "// x/a.ts\n".toList⟩]⟩
      (by decide) ⟨[("x/a.proto".toList, [])], [0], rfl, by decide, rfl⟩).1⟩

/-- C7 (counterexample): `a.proto.proto` and `a.ts.proto` are distinct requested
names, and a run of `generateCode` answers with two files both named
`a.ts.ts`. -/
theorem generateCode_duplicate_output_names :
    collidingRequest.fileToGenerate.Nodup ∧
    ∃ response', GenerateCode collidingRequest ⟨[]⟩ response' ∧
      response'.file.map ResponseFile.GetName = ["a.ts.ts".toList, "a.ts.ts".toList] ∧
      ¬ (response'.file.map ResponseFile.GetName).Nodup :=
  ⟨by decide,
    ⟨[⟨some "a.ts.ts".toList, some "// a.ts.ts\n".toList⟩,
       ⟨some "a.ts.ts".toList, some "// a.ts.ts\n".toList⟩]⟩,
    ⟨[("a.proto.proto".toList, []), ("a.ts.proto".toList, [])], [0, 1], rfl, by decide, rfl⟩,
    by decide, by decide⟩

theorem getMessageLocation_orderRequest :
    getMessageLocation orderRequest = some [("order.proto".toList,
      [{ location := { path := [4, 0], leadingComments := some "Represents an order\n".toList },
         message := orderMessage, comments := ["Represents an order".toList] }])] := rfl

theorem generateCode_orderRequest (response : CodeGeneratorResponse) :
    generateCode orderRequest response [0] =
      some ⟨[⟨some "order.ts".toList, some orderContent⟩]⟩ := by
  have h : generateCode orderRequest response [0] = generateCode orderRequest ⟨[]⟩ [0] := rfl
  rw [h]
  decide

/-- C9 (as amended): for the `order.proto` request, `generateCode` completes and
every run yields exactly one output file, named `order.ts`, whose content is
the header line, then the opening of the exported interface `Order`, then the
comment block with the single line `Represents an order` directly followed by
`*/ `, then an exported interface `Meta` with the field line `ts: number;`
and its closing brace, then the field lines `id: string;` and
`items: Array<Item>;` of `Order` and its closing brace. -/
theorem order_scenario_output (response : CodeGeneratorResponse) :
    (∃ response', GenerateCode orderRequest response response') ∧
    (∀ response', GenerateCode orderRequest response response' →
      response'.file = [⟨some "order.ts".toList, some orderContent⟩]) ∧
    InOrder ["// order.ts\n".toList, "export interface Order \x7b".toList,
      "/* Leading Comments\nRepresents an order\n*/ ".toList,
      "export interface  Meta \x7b".toList, "ts: number;".toList, "\x7d".toList,
      "id: string;".toList, "items: Array<Item>;".toList, "\x7d".toList] orderContent := by
  refine ⟨⟨_, _, [0], getMessageLocation_orderRequest, by decide,
    generateCode_orderRequest response⟩, ?_, ?_⟩
  · rintro response' ⟨m, order, hm, hord, hgen⟩
    rw [getMessageLocation_orderRequest] at hm
    have hm' := Option.some.inj hm
    subst hm'
    have ho : order = [0] := List.perm_singleton.mp hord
    subst ho
    rw [generateCode_orderRequest] at hgen
    rw [← Option.some.inj hgen]
  · rw [← occursInOrder_iff]
    decide

theorem order_scenario_output_witness :
    GenerateCode orderRequest ⟨[]⟩ ⟨[⟨some "order.ts".toList, some orderContent⟩]⟩ ∧
    (CodeGeneratorResponse.mk [⟨some "order.ts".toList, some orderContent⟩]).file =
      [⟨some "order.ts".toList, some orderContent⟩] :=
  ⟨⟨_, [0], getMessageLocation_orderRequest, by decide, generateCode_orderRequest ⟨[]⟩⟩,
    (order_scenario_output ⟨[]⟩).2.1 _
      ⟨_, [0], getMessageLocation_orderRequest, by decide, generateCode_orderRequest ⟨[]⟩⟩⟩

/-- C9 (counterexample): in the content generated for `order.proto`, the
declaration of the interface `Order` does not come after the comment line, nor
after the declaration of the interface `Meta`: `export interface Order` occurs
only before them. -/
theorem order_scenario_interface_precedes_comment :
    GenerateCode orderRequest ⟨[]⟩ ⟨[⟨some "order.ts".toList, some orderContent⟩]⟩ ∧
    ¬ InOrder ["Represents an order".toList, "interface Order".toList] orderContent ∧
    ¬ InOrder ["interface  Meta".toList, "interface Order".toList] orderContent ∧
    InOrder ["interface Order".toList, "Represents an order".toList,
      "interface  Meta".toList] orderContent := by
  refine ⟨⟨_, [0], getMessageLocation_orderRequest, by decide,
    generateCode_orderRequest ⟨[]⟩⟩, ?_, ?_, ?_⟩
  · rw [← occursInOrder_iff]
    decide
  · rw [← occursInOrder_iff]
    decide
  · rw [← occursInOrder_iff]
    decide

theorem locationLoop_completes_iff (proto : FileDescriptorProto) :
    ∀ (locations : List Location) (acc : List MessageLocation),
      (∃ r, locationLoop proto locations acc = some r) ↔
        ∀ location ∈ locations, ∀ i, location.GetPath = [4, i] →
          0 ≤ i ∧ i < (proto.GetMessageType.length : Int) := by
  intro locations
  induction locations with
  | nil => intro acc; simp [locationLoop]
  | cons location rest ih =>
    intro acc
    rw [locationLoop]
    by_cases hp : ∃ i, location.GetPath = [4, i]
    · obtain ⟨i, hi⟩ := hp
      rw [locationStep_accepted proto location i hi]
      cases hx : index proto.GetMessageType i with
      | none =>
        have hno : ¬ (0 ≤ i ∧ i < (proto.GetMessageType.length : Int)) := by
          intro h
          obtain ⟨x, hx'⟩ := (index_some_iff proto.GetMessageType i).mpr h
          rw [hx] at hx'
          cases hx'
        simp only [Option.map_none']
        constructor
        · rintro ⟨r, hr⟩
          cases hr
        · intro h
          exact absurd (h location (List.mem_cons_self _ _) i hi) hno
      | some x =>
        have hyes := (index_some_iff proto.GetMessageType i).mp ⟨x, hx⟩
        simp only [Option.map_some']
        rw [ih]
        constructor
        · intro h l hl j hj
          rcases List.mem_cons.mp hl with rfl | hl'
          · rw [hi] at hj
            have : i = j := by simpa using hj
            rw [← this]
            exact hyes
          · exact h l hl' j hj
        · intro h l hl
          exact h l (List.mem_cons_of_mem _ hl)
    · rw [locationStep_rejected proto location hp]
      simp only
      rw [ih]
      constructor
      · intro h l hl j hj
        rcases List.mem_cons.mp hl with rfl | hl'
        · exact absurd ⟨j, hj⟩ hp
        · exact h l hl' j hj
      · intro h l hl
        exact h l (List.mem_cons_of_mem _ hl)

theorem getMessageLocationLoop_completes_iff (request : CodeGeneratorRequest) :
    ∀ (names : List Str) (index : Nat) (ret : GoMap (List MessageLocation)),
      (∃ m, getMessageLocationLoop request index names ret = some m) ↔
        ∀ k, k < names.length → ∃ proto, request.protoFile[index + k]? = some proto ∧
          ∃ lms, fileMessageLocations proto = some lms := by
  intro names
  induction names with
  | nil => intro index ret; simp [getMessageLocationLoop]
  | cons name rest ih =>
    intro index ret
    rw [getMessageLocationLoop]
    constructor
    · rintro ⟨m, hm⟩
      cases hp : request.protoFile[index]? with
      | none => simp [hp] at hm
      | some proto =>
        cases hf : fileMessageLocations proto with
        | none => simp [hp, hf] at hm
        | some lms =>
          simp only [hp, hf, Option.bind_eq_bind, Option.some_bind] at hm
          have h := (ih (index + 1) _).mp ⟨m, hm⟩
          intro k hk
          cases k with
          | zero => exact ⟨proto, by simpa using hp, lms, hf⟩
          | succ j =>
            have := h j (by simpa using hk)
            rwa [show index + 1 + j = index + (j + 1) by omega] at this
    · intro h
      obtain ⟨proto, hp, lms, hf⟩ := h 0 (by simp)
      simp only [Nat.add_zero] at hp
      simp only [hp, hf, Option.bind_eq_bind, Option.some_bind]
      apply (ih (index + 1) _).mpr
      intro k hk
      have := h (k + 1) (by simpa using hk)
      rwa [show index + (k + 1) = index + 1 + k by omega] at this

/-- C10 (as amended): `getMessageLocation` completes without failure exactly
when `ProtoFile` has a descriptor at the position of every requested name and,
in each of these descriptors, every location record with a path `[4, i]` has
`0 ≤ i < number of top-level messages`.  Paths of any other length or with
another first element are never an obstacle: such records are filtered out. -/
theorem getMessageLocation_completes_iff (request : CodeGeneratorRequest) :
    (∃ m, getMessageLocation request = some m) ↔
      ∀ k, k < request.fileToGenerate.length →
        ∃ proto, request.protoFile[k]? = some proto ∧
          ∀ location ∈ proto.GetLocations, ∀ i, location.GetPath = [4, i] →
            0 ≤ i ∧ i < (proto.GetMessageType.length : Int) := by
  rw [getMessageLocation, getMessageLocationLoop_completes_iff]
  constructor
  · intro h k hk
    obtain ⟨proto, hp, hl⟩ := h k hk
    rw [Nat.zero_add] at hp
    exact ⟨proto, hp, (locationLoop_completes_iff proto _ _).mp hl⟩
  · intro h k hk
    obtain ⟨proto, hp, hl⟩ := h k hk
    rw [Nat.zero_add]
    exact ⟨proto, hp, (locationLoop_completes_iff proto _ _).mpr hl⟩

theorem getMessageLocation_completes_iff_witness :
    ∃ m, getMessageLocation
      ⟨["odd.proto".toList],
       [⟨none, [], some ⟨[⟨[], none⟩, ⟨[4], none⟩, ⟨[5, 7], none⟩, ⟨[4, 0, 2, 1], none⟩]⟩⟩]⟩
      = some m :=
  (getMessageLocation_completes_iff
    ⟨["odd.proto".toList],
     [⟨none, [], some ⟨[⟨[], none⟩, ⟨[4], none⟩, ⟨[5, 7], none⟩, ⟨[4, 0, 2, 1], none⟩]⟩⟩]⟩).mpr
    (by
      intro k hk
      have hk0 : k = 0 := by
        simp at hk
        exact hk
      subst hk0
      refine ⟨_, rfl, ?_⟩
      intro location hl i hi
      simp [FileDescriptorProto.GetLocations] at hl
      rcases hl with rfl | rfl | rfl | rfl <;> simp [Location.GetPath] at hi)

/-- C10 (counterexample): a location record with path `[4, 0]` in a file without
top-level messages, and one with path `[4, -1]` in a file with one message, make
the extraction fail with an out-of-range index; `getMessageLocation` does not
complete on a request for such a file. -/
theorem getMessageLocation_index_out_of_range :
    fileMessageLocations danglingProto = none ∧
    fileMessageLocations negativeProto = none ∧
    getMessageLocation ⟨["d.proto".toList], [danglingProto]⟩ = none ∧
    getMessageLocation ⟨["n.proto".toList], [negativeProto]⟩ = none :=
  ⟨rfl, rfl, rfl, rfl⟩

/-- C11: for an accepted location record whose leading comment is empty or
absent, the split yields exactly one line, the empty one, the slice
`leadingComments[:len-1]` is the empty list, and the rendered comment block has
no lines; for every text the split has at least one line, so the slice is
always within range. -/
theorem empty_comment_yields_no_lines (proto : FileDescriptorProto) (location : Location)
    (i : Int) (message : DescriptorProto)
    (hp : location.GetPath = [4, i]) (hm : index proto.GetMessageType i = some message)
    (hc : location.leadingComments = none ∨ location.leadingComments = some []) :
    Split location.GetLeadingComments "\n".toList = [[]] ∧
    sliceTo (Split location.GetLeadingComments "\n".toList)
      (((Split location.GetLeadingComments "\n".toList).length : Int) - 1) = some [] ∧
    locationStep proto location =
      some (some { location := location, message := message, comments := [] }) ∧
    (∀ text : Str, 1 ≤ (Split text "\n".toList).length ∧
      ∃ kept, sliceTo (Split text "\n".toList)
        (((Split text "\n".toList).length : Int) - 1) = some kept) ∧
    ∀ buf, ∃ rest,
      writeMessage buf { location := location, message := message, comments := [] } =
        some (buf ++ ("\nexport interface ".toList ++ message.GetName ++ " \x7b \n".toList) ++
          "/* Leading Comments\n".toList ++ "*/ \n".toList ++ rest) := by
  have hempty : location.GetLeadingComments = [] := by
    rcases hc with h | h <;> simp [Location.GetLeadingComments, h]
  have hsplit : Split location.GetLeadingComments "\n".toList = [[]] := by
    rw [hempty]
    rfl
  refine ⟨hsplit, ?_, ?_, ?_, ?_⟩
  · rw [hsplit]
    rfl
  · rw [locationStep_accepted proto location i hp, hm, hsplit]
    rfl
  · intro text
    exact ⟨Split_newline_length_pos text,
      _, sliceTo_length_pred _ (Split_newline_length_pos text)⟩
  · intro buf
    rw [writeMessage_eq]
    exact ⟨_, by
      simp only [List.map_nil, List.flatten_nil, List.append_nil, List.append_assoc]
      rfl⟩

theorem empty_comment_yields_no_lines_witness :
    (Location.mk [4, 0] none).GetPath = [4, 0] ∧
    index (FileDescriptorProto.mk none [DescriptorProto.mk (some "M".toList) [] []]
      none).GetMessageType 0 = some (DescriptorProto.mk (some "M".toList) [] []) ∧
    locationStep (FileDescriptorProto.mk none [DescriptorProto.mk (some "M".toList) [] []] none)
        (Location.mk [4, 0] none) =
      some (some { location := Location.mk [4, 0] none,
                   message := DescriptorProto.mk (some "M".toList) [] [], comments := [] }) :=
  ⟨rfl, rfl,
    (empty_comment_yields_no_lines
      (FileDescriptorProto.mk none [DescriptorProto.mk (some "M".toList) [] []] none)
      (Location.mk [4, 0] none) 0 (DescriptorProto.mk (some "M".toList) [] []) rfl rfl
      (Or.inl rfl)).2.2.1⟩

/-- C13: `typeToTypeTS` is total: for every field descriptor, whatever its
label, type tag and type name, it returns a string; the index
`depNames[len(depNames)-1]` is in range for every type name because the split
on `.` has at least one segment, also for the empty name, a name made of dots
and an absent name. -/
theorem typeToTypeTS_never_fails (field : FieldDescriptorProto) :
    (∃ r, typeToTypeTS field = some r) ∧
    (∃ r, getTSType field = some r) ∧
    (∀ typeName : Str, 1 ≤ (Split typeName ".".toList).length ∧
      ∃ r, index (Split typeName ".".toList)
        (((Split typeName ".".toList).length : Int) - 1) = some r) ∧
    (∀ name label, getTSType ⟨name, label, some .TYPE_MESSAGE, some []⟩ = some []) ∧
    (∀ name label, getTSType ⟨name, label, some .TYPE_MESSAGE, some "...".toList⟩ = some []) ∧
    (∀ name label, getTSType ⟨name, label, some .TYPE_MESSAGE, none⟩ = some []) := by
  refine ⟨typeToTypeTS_total field, getTSType_total field, ?_, ?_, ?_, ?_⟩
  · intro typeName
    obtain ⟨r, hr, _⟩ := Split_dot_last typeName
    refine ⟨?_, r, hr⟩
    have hsep : ".".toList ≠ [] := by decide
    rw [Split, if_neg hsep]
    exact List.length_pos.mpr (splitLoop_ne_nil _ _ _)
  · intro name label
    rfl
  · intro name label
    rfl
  · intro name label
    rfl

theorem GoMap.set_append {V : Type} (k : Str) (v : V) : ∀ (m : GoMap V),
    k ∉ m.map Prod.fst → m.set k v = m ++ [(k, v)] := by
  intro m
  induction m with
  | nil => intro _; rfl
  | cons e m ih =>
    intro h
    obtain ⟨k', v'⟩ := e
    have hne : ¬ k' = k := by
      intro e
      apply h
      show k ∈ k' :: m.map Prod.fst
      rw [e]
      exact List.mem_cons_self _ _
    have hrest : k ∉ m.map Prod.fst := by
      intro hk
      apply h
      show k ∈ k' :: m.map Prod.fst
      exact List.mem_cons_of_mem _ hk
    simp only [GoMap.set, if_neg hne, ih hrest, List.cons_append]

theorem getMessageLocationLoop_entries (request : CodeGeneratorRequest) :
    ∀ (names : List Str) (index : Nat) (ret m : GoMap (List MessageLocation)),
      names.Nodup → (∀ k ∈ names, k ∉ ret.map Prod.fst) →
      getMessageLocationLoop request index names ret = some m →
      ∃ entries, m = ret ++ entries ∧ entries.map Prod.fst = names ∧
        ∀ k name lms, entries[k]? = some (name, lms) →
          ∃ proto, request.protoFile[index + k]? = some proto ∧
            fileMessageLocations proto = some lms := by
  intro names
  induction names with
  | nil =>
    intro index ret m _ _ h
    simp only [getMessageLocationLoop, Option.some.injEq] at h
    exact ⟨[], by simp [h], rfl, by simp⟩
  | cons name rest ih =>
    intro index ret m hnd hdis h
    rw [getMessageLocationLoop] at h
    cases hp : request.protoFile[index]? with
    | none => simp [hp] at h
    | some proto =>
      cases hf : fileMessageLocations proto with
      | none => simp [hp, hf] at h
      | some lms =>
        simp only [hp, hf, Option.bind_eq_bind, Option.some_bind] at h
        have hnd' := List.nodup_cons.mp hnd
        rw [GoMap.set_append name lms ret (hdis name (List.mem_cons_self _ _))] at h
        have hdis' : ∀ k ∈ rest, k ∉ (ret ++ [(name, lms)]).map Prod.fst := by
          intro k hk
          simp only [List.map_append, List.map_cons, List.map_nil, List.mem_append,
            List.mem_singleton, not_or]
          refine ⟨hdis k (List.mem_cons_of_mem _ hk), ?_⟩
          rintro rfl
          exact hnd'.1 hk
        obtain ⟨entries, h1, h2, h3⟩ := ih (index + 1) _ m hnd'.2 hdis' h
        refine ⟨(name, lms) :: entries, by rw [h1]; simp, by simp [h2], ?_⟩
        intro k name' lms' hk
        cases k with
        | zero =>
          simp only [List.getElem?_cons_zero, Option.some.injEq, Prod.mk.injEq] at hk
          exact ⟨proto, by simpa using hp, by rw [← hk.2]; exact hf⟩
        | succ j =>
          simp only [List.getElem?_cons_succ] at hk
          obtain ⟨proto', hp', hf'⟩ := h3 j name' lms' hk
          exact ⟨proto', by rwa [show index + (j + 1) = index + 1 + j by omega], hf'⟩

theorem writeMessage_render (lm : MessageLocation) (buf : Str) :
    writeMessage buf lm = some (buf ++ (writeMessage [] lm).getD []) := by
  obtain ⟨text, htext⟩ := writeMessage_append lm
  rw [htext buf, htext []]
  simp

theorem writeMessages_render : ∀ (messages : List MessageLocation) (buf : Str),
    writeMessages buf messages =
      some (buf ++ (messages.map (fun lm => (writeMessage [] lm).getD [])).flatten) := by
  intro messages
  induction messages with
  | nil => intro buf; simp [writeMessages]
  | cons lm rest ih =>
    intro buf
    rw [writeMessages, writeMessage_render lm buf]
    simp only [Option.bind_eq_bind, Option.some_bind, ih, List.map_cons, List.flatten_cons,
      List.append_assoc]

theorem createTSFile_render (response : CodeGeneratorResponse) (filename : Str)
    (messages : List MessageLocation) :
    createTSFile response filename messages = some
      { file := response.file ++
          [{ name := some (Replace filename ".proto".toList ".ts".toList),
             content := some ("// ".toList ++ Replace filename ".proto".toList ".ts".toList ++
               "\n".toList ++
               (messages.map (fun lm => (writeMessage [] lm).getD [])).flatten) }] } := by
  rw [createTSFile, writeMessages_render]
  rfl

theorem markdownLoop_files : ∀ (entries : List (Str × List MessageLocation))
    (response : CodeGeneratorResponse),
    markdownLoop response entries = some
      { file := response.file ++ entries.map (fun e =>
          { name := some (Replace e.1 ".proto".toList ".ts".toList),
            content := some ("// ".toList ++ Replace e.1 ".proto".toList ".ts".toList ++
              "\n".toList ++ (e.2.map (fun lm => (writeMessage [] lm).getD [])).flatten) }) } := by
  intro entries
  induction entries with
  | nil => intro response; simp [markdownLoop]
  | cons e rest ih =>
    intro response
    obtain ⟨filename, lms⟩ := e
    rw [markdownLoop, createTSFile_render]
    simp only [Option.bind_eq_bind, Option.some_bind, ih, List.map_cons, List.append_assoc,
      List.singleton_append]

theorem generateCode_files (request : CodeGeneratorRequest) (response : CodeGeneratorResponse)
    (m : GoMap (List MessageLocation)) (order : List Nat)
    (hm : getMessageLocation request = some m) :
    generateCode request response order = some
      { file := order.filterMap (fun i => (m.map (fun e =>
          ({ name := some (Replace e.1 ".proto".toList ".ts".toList),
             content := some ("// ".toList ++ Replace e.1 ".proto".toList ".ts".toList ++
               "\n".toList ++ (e.2.map (fun lm => (writeMessage [] lm).getD [])).flatten) }
            : ResponseFile)))[i]?) } := by
  rw [generateCode, generateMessageMarkdown, hm]
  simp only [Option.bind_eq_bind, Option.some_bind]
  rw [markdownLoop_files]
  simp only [List.nil_append, List.map_filterMap, List.getElem?_map]

theorem createTSFile_single_forall₂ : ∀ (m : GoMap (List MessageLocation)),
    List.Forall₂ (fun e f => createTSFile ⟨[]⟩ e.1 e.2 = some ⟨[f]⟩) m
      (m.map (fun e =>
        ({ name := some (Replace e.1 ".proto".toList ".ts".toList),
           content := some ("// ".toList ++ Replace e.1 ".proto".toList ".ts".toList ++
             "\n".toList ++ (e.2.map (fun lm => (writeMessage [] lm).getD [])).flatten) }
          : ResponseFile))) := by
  intro m
  induction m with
  | nil => exact List.Forall₂.nil
  | cons e rest ih =>
    refine List.Forall₂.cons ?_ ih
    rw [createTSFile_render]
    rfl

/-- C12 (as amended): on every request on which `generateCode` completes, with
`m` the map built by `getMessageLocation` (its keys are the requested names in
request order when these are pairwise distinct), the files of the response are
the files generated from the entries of `m`, each exactly once, and the k-th
response file is the one generated from the entry that the range over the map
visits k-th.  The response is in the order of the entries, hence of
`FileToGenerate`, on a run whose range visits the entries in that order, and on
every run when the map has at most one entry; otherwise its order is the
iteration order of the map. -/
theorem generateCode_output_follows_visiting_order (request : CodeGeneratorRequest)
    (response : CodeGeneratorResponse) (m : GoMap (List MessageLocation))
    (hm : getMessageLocation request = some m) :
    (request.fileToGenerate.Nodup → m.map Prod.fst = request.fileToGenerate) ∧
    ∃ files : List ResponseFile,
      List.Forall₂ (fun e f => createTSFile ⟨[]⟩ e.1 e.2 = some ⟨[f]⟩) m files ∧
      (∀ response', GenerateCode request response response' →
        ∃ order, IsVisitingOrder m.length order ∧
          response'.file = order.filterMap (fun i => files[i]?)) ∧
      (∀ response', GenerateCode request response response' → response'.file.Perm files) ∧
      (∀ order response', generateCode request response order = some response' →
        response'.file = order.filterMap (fun i => files[i]?)) ∧
      (∀ response', generateCode request response (List.range m.length) = some response' →
        response'.file = files) ∧
      (m.length ≤ 1 → ∀ response', GenerateCode request response response' →
        response'.file = files) := by
  have hlen : (m.map (fun e =>
      ({ name := some (Replace e.1 ".proto".toList ".ts".toList),
         content := some ("// ".toList ++ Replace e.1 ".proto".toList ".ts".toList ++
           "\n".toList ++ (e.2.map (fun lm => (writeMessage [] lm).getD [])).flatten) }
        : ResponseFile))).length = m.length := List.length_map _ _
  have hord : ∀ order response', generateCode request response order = some response' →
      response'.file = order.filterMap (fun i => (m.map (fun e =>
        ({ name := some (Replace e.1 ".proto".toList ".ts".toList),
           content := some ("// ".toList ++ Replace e.1 ".proto".toList ".ts".toList ++
             "\n".toList ++ (e.2.map (fun lm => (writeMessage [] lm).getD [])).flatten) }
          : ResponseFile)))[i]?) := by
    intro order response' hgen
    rw [generateCode_files request response m order hm] at hgen
    rw [← Option.some.inj hgen]
  have hrange : ∀ response',
      generateCode request response (List.range m.length) = some response' →
      response'.file = m.map (fun e =>
        ({ name := some (Replace e.1 ".proto".toList ".ts".toList),
           content := some ("// ".toList ++ Replace e.1 ".proto".toList ".ts".toList ++
             "\n".toList ++ (e.2.map (fun lm => (writeMessage [] lm).getD [])).flatten) }
          : ResponseFile)) := by
    intro response' hgen
    rw [hord _ _ hgen, ← hlen, filterMap_range_getElem?]
  refine ⟨?_, _, createTSFile_single_forall₂ m, ?_, ?_, hord, hrange, ?_⟩
  · intro hnodup
    have hkeys := getMessageLocationLoop_keys request request.fileToGenerate 0 [] m hnodup
      (by simp) hm
    simpa using hkeys
  · rintro response' ⟨m', order, hm', ho, hgen⟩
    rw [hm] at hm'
    have hmm := Option.some.inj hm'
    subst hmm
    exact ⟨order, ho, hord order response' hgen⟩
  · rintro response' ⟨m', order, hm', ho, hgen⟩
    rw [hm] at hm'
    have hmm := Option.some.inj hm'
    subst hmm
    rw [hord order response' hgen]
    exact visitingOrder_perm _ order (by rw [hlen]; exact ho)
  · rintro hle response' ⟨m', order, hm', ho, hgen⟩
    rw [hm] at hm'
    have hmm := Option.some.inj hm'
    subst hmm
    have horder : order = List.range m.length := by
      unfold IsVisitingOrder at ho
      rcases Nat.le_one_iff_eq_zero_or_eq_one.mp hle with h0 | h1
      · rw [h0] at ho ⊢
        exact List.Perm.eq_nil ho
      · rw [h1] at ho ⊢
        exact List.perm_singleton.mp ho
    rw [horder] at hgen
    exact hrange response' hgen

theorem generateCode_output_follows_visiting_order_witness :
    getMessageLocation twoFileRequest = some [("a.proto".toList, []), ("b.proto".toList, [])] ∧
    ([("a.proto".toList, []), ("b.proto".toList, [])] :
      GoMap (List MessageLocation)).map Prod.fst = twoFileRequest.fileToGenerate :=
  ⟨rfl,
    (generateCode_output_follows_visiting_order twoFileRequest ⟨[]⟩
      [("a.proto".toList, []), ("b.proto".toList, [])] rfl).1 (by decide)⟩

/-- C12 (counterexample): for the request listing `a.proto` then `b.proto`, the
run whose range visits the map in the order `[1, 0]` answers with `b.ts` first
and `a.ts` second, while the run in the order `[0, 1]` answers with `a.ts`
first: the first response file need not come from the first requested name. -/
theorem generateCode_order_depends_on_map_iteration :
    twoFileRequest.fileToGenerate = ["a.proto".toList, "b.proto".toList] ∧
    GenerateCode twoFileRequest ⟨[]⟩
      ⟨[⟨some "b.ts".toList, some "// b.ts\n".toList⟩,
        ⟨some "a.ts".toList, some "// a.ts\n".toList⟩]⟩ ∧
    GenerateCode twoFileRequest ⟨[]⟩
      ⟨[⟨some "a.ts".toList, some "// a.ts\n".toList⟩,
        ⟨some "b.ts".toList, some "// b.ts\n".toList⟩]⟩ ∧
    createTSFile ⟨[]⟩ "a.proto".toList [] =
      some ⟨[⟨some "a.ts".toList, some "// a.ts\n".toList⟩]⟩ ∧
    (⟨some "b.ts".toList, some "// b.ts\n".toList⟩ : ResponseFile) ≠
      ⟨some "a.ts".toList, some "// a.ts\n".toList⟩ :=
  ⟨rfl,
    ⟨[("a.proto".toList, []), ("b.proto".toList, [])], [1, 0], rfl, by decide, rfl⟩,
    ⟨[("a.proto".toList, []), ("b.proto".toList, [])], [0, 1], rfl, by decide, rfl⟩,
    rfl, by decide⟩

/-- C14 (the code at the failing input): `b.proto` is requested and `ProtoFile`
lists the imported `a.proto` before it; `getMessageLocation` associates
`b.proto` with the message `A` and the comment of `a.proto`, the descriptor at
position 0, and the generated `b.ts` declares the interface `A`, while the
descriptor named `b.proto` holds the message `B`. -/
theorem getMessageLocation_pairs_by_position :
    importRequest.fileToGenerate = ["b.proto".toList] ∧
    importRequest.protoFile.map (fun p => p.name) =
      [some "a.proto".toList, some "b.proto".toList] ∧
    getMessageLocation importRequest = some [("b.proto".toList,
      [{ location := { path := [4, 0], leadingComments := some "about A\n".toList },
         message := .mk (some "A".toList) [] [], comments := ["about A".toList] }])] ∧
    fileMessageLocations (singleMessageProto "b.proto".toList "B".toList "about B\n".toList) =
      some [{ location := { path := [4, 0], leadingComments := some "about B\n".toList },
              message := .mk (some "B".toList) [] [], comments := ["about B".toList] }] ∧
    GenerateCode importRequest ⟨[]⟩
      ⟨[⟨some "b.ts".toList,
         some ("// b.ts\n" ++ "\nexport interface A \x7b \n" ++ "/* Leading Comments\n" ++
           "about A\n" ++ "*/ \n" ++ "\x7d\n").toList⟩]⟩ :=
  ⟨rfl, rfl, rfl, rfl, ⟨_, [0], rfl, by decide, by decide⟩⟩

theorem locationLoop_spec (proto : FileDescriptorProto) :
    ∀ (locations : List Location) (acc r : List MessageLocation),
      locationLoop proto locations acc = some r →
      ∃ news, r = acc ++ news ∧
        List.Forall₂ (fun location ml => ml.location = location ∧
            ∃ i, location.GetPath = [4, i] ∧ index proto.GetMessageType i = some ml.message ∧
              ml.comments = (Split location.GetLeadingComments "\n".toList).take
                ((Split location.GetLeadingComments "\n".toList).length - 1))
          (locations.filter
            (fun l => decide (l.GetPath.length = 2 ∧ l.GetPath[0]? = some 4))) news := by
  intro locations
  induction locations with
  | nil =>
    intro acc r h
    simp only [locationLoop, Option.some.injEq] at h
    exact ⟨[], by simp [h], List.Forall₂.nil⟩
  | cons location rest ih =>
    intro acc r h
    rw [locationLoop] at h
    by_cases hp : ∃ i, location.GetPath = [4, i]
    · have hacc : decide (location.GetPath.length = 2 ∧ location.GetPath[0]? = some 4) = true :=
        decide_eq_true ((path_shape_iff _).mpr hp)
      obtain ⟨i, hi⟩ := hp
      rw [locationStep_accepted proto location i hi] at h
      cases hx : index proto.GetMessageType i with
      | none => simp [hx] at h
      | some x =>
        simp only [hx, Option.map_some'] at h
        obtain ⟨news, h1, h2⟩ := ih _ r h
        refine ⟨{ location := location, message := x,
                  comments := (Split location.GetLeadingComments "\n".toList).take
                    ((Split location.GetLeadingComments "\n".toList).length - 1) } :: news,
          by rw [h1]; simp, ?_⟩
        simp only [List.filter_cons, hacc, if_true]
        exact List.Forall₂.cons ⟨rfl, i, hi, hx, rfl⟩ h2
    · have hacc : decide (location.GetPath.length = 2 ∧ location.GetPath[0]? = some 4) = false :=
        decide_eq_false (fun hd => hp ((path_shape_iff _).mp hd))
      rw [locationStep_rejected proto location hp] at h
      simp only at h
      obtain ⟨news, h1, h2⟩ := ih _ r h
      refine ⟨news, h1, ?_⟩
      simp only [List.filter_cons, hacc, Bool.false_eq_true, if_false]
      exact h2

/-- C15: the list returned for one file is the order-preserving filter-map of
its location records: the j-th `MessageLocation` comes from the j-th accepted
record (path of length 2 starting with 4), in record order, and its message is
the entry of the top-level message list at index `path[1]`; records `[4, 1]`
then `[4, 0]` give message 1 followed by message 0. -/
theorem fileMessageLocations_follow_records (proto : FileDescriptorProto)
    (mls : List MessageLocation) (h : fileMessageLocations proto = some mls) :
    List.Forall₂ (fun location ml => ml.location = location ∧
        ∃ i, location.GetPath = [4, i] ∧ index proto.GetMessageType i = some ml.message)
      (proto.GetLocations.filter
        (fun l => decide (l.GetPath.length = 2 ∧ l.GetPath[0]? = some 4))) mls ∧
    mls.map (fun ml => ml.location) = proto.GetLocations.filter
        (fun l => decide (l.GetPath.length = 2 ∧ l.GetPath[0]? = some 4)) ∧
    ∀ m0 m1 : DescriptorProto,
      fileMessageLocations ⟨none, [m0, m1], some ⟨[⟨[4, 1], none⟩, ⟨[4, 0], none⟩]⟩⟩ =
        some [⟨⟨[4, 1], none⟩, m1, []⟩, ⟨⟨[4, 0], none⟩, m0, []⟩] := by
  obtain ⟨news, h1, h2⟩ := locationLoop_spec proto _ _ _ h
  simp only [List.nil_append] at h1
  subst h1
  refine ⟨?_, ?_, ?_⟩
  · exact List.Forall₂.imp (fun _ _ hab => ⟨hab.1, hab.2.imp fun i hi => ⟨hi.1, hi.2.1⟩⟩) h2
  · clear h
    generalize proto.GetLocations.filter _ = accepted at h2
    induction h2 with
    | nil => rfl
    | cons hab _ ih => simp only [List.map_cons, hab.1, ih]
  · intro m0 m1
    rfl

theorem fileMessageLocations_follow_records_witness :
    fileMessageLocations orderProto = some
      [{ location := { path := [4, 0], leadingComments := some "Represents an order\n".toList },
         message := orderMessage, comments := ["Represents an order".toList] }] ∧
    ([{ location := { path := [4, 0], leadingComments := some "Represents an order\n".toList },
        message := orderMessage, comments := ["Represents an order".toList] }] :
      List MessageLocation).map (fun ml => ml.location) =
      orderProto.GetLocations.filter
        (fun l => decide (l.GetPath.length = 2 ∧ l.GetPath[0]? = some 4)) :=
  ⟨rfl, (fileMessageLocations_follow_records orderProto _ rfl).2.1⟩

theorem splitLoop_join (sep : Str) (hsep : sep ≠ []) : ∀ (n : Nat) (s : Str), s.length ≤ n →
    ∃ init r, splitLoop n s sep = init ++ [r] ∧
      (init.map (fun l => l ++ sep)).flatten ++ r = s ∧ Index r sep = none := by
  intro n
  induction n with
  | zero =>
    intro s hs
    have : s = [] := List.length_eq_zero.mp (Nat.le_zero.mp hs)
    subst this
    exact ⟨[], [], by simp [splitLoop], by simp, by simp [Index, hsep]⟩
  | succ n ih =>
    intro s hs
    cases h : Index s sep with
    | none => exact ⟨[], s, by simp [splitLoop, h], by simp, h⟩
    | some m =>
      have hsplit := Index_some_split sep s m h
      have hlen : 0 < sep.length := List.length_pos.mpr hsep
      have hs' : (s.drop (m + sep.length)).length ≤ n := by
        rw [List.length_drop]; omega
      obtain ⟨init, r, h1, h2, h3⟩ := ih (s.drop (m + sep.length)) hs'
      refine ⟨s.take m :: init, r, by simp [splitLoop, h, h1], ?_, h3⟩
      conv_rhs => rw [hsplit, ← h2]
      simp only [List.map_cons, List.flatten_cons, List.append_assoc]

theorem mem_flatten_lines (sep : Str) (c : Char) (hc : c ∈ sep) :
    ∀ (init : List Str), init ≠ [] → c ∈ (init.map (fun l => l ++ sep)).flatten := by
  intro init hne
  cases init with
  | nil => exact absurd rfl hne
  | cons x xs =>
    simp only [List.map_cons, List.flatten_cons, List.mem_append]
    exact Or.inl (Or.inr hc)

theorem flatten_lines_ends (sep : Str) (init : List Str) :
    (init.map (fun l => l ++ sep)).flatten = [] ∨
      ∃ q, (init.map (fun l => l ++ sep)).flatten = q ++ sep := by
  rcases List.eq_nil_or_concat init with h | ⟨front, x, h⟩
  · left
    rw [h]
    rfl
  · right
    subst h
    exact ⟨(front.map (fun l => l ++ sep)).flatten ++ x, by simp [List.append_assoc]⟩

theorem Split_newline_kept_dropped (t : Str) :
    ∃ kept dropped,
      Split t "\n".toList = kept ++ [dropped] ∧
      sliceTo (Split t "\n".toList) (((Split t "\n".toList).length : Int) - 1) = some kept ∧
      (kept.map (fun line => line ++ "\n".toList)).flatten ++ dropped = t ∧
      '\n' ∉ dropped ∧
      ((kept.map (fun line => line ++ "\n".toList)).flatten = [] ∨
        ∃ q, (kept.map (fun line => line ++ "\n".toList)).flatten = q ++ "\n".toList) ∧
      ('\n' ∉ t → (kept.map (fun line => line ++ "\n".toList)).flatten = []) ∧
      (dropped = [] ↔ (t = [] ∨ ∃ p, t = p ++ "\n".toList)) ∧
      (t ≠ [] → (¬ ∃ p, t = p ++ "\n".toList) → dropped ≠ [] ∧ dropped <:+ t) := by
  have hsep : "\n".toList ≠ [] := by decide
  obtain ⟨kept, dropped, h1, h2, h3⟩ := splitLoop_join "\n".toList hsep t.length t (Nat.le_refl _)
  have hS : Split t "\n".toList = kept ++ [dropped] := by
    rw [Split, if_neg hsep]
    exact h1
  have hnl : '\n' ∉ dropped := Index_singleton_none '\n' dropped h3
  have hiff : dropped = [] ↔ (t = [] ∨ ∃ p, t = p ++ "\n".toList) := by
    constructor
    · intro hd
      rw [hd, List.append_nil] at h2
      rcases flatten_lines_ends "\n".toList kept with h | ⟨q, h⟩
      · left
        rw [← h2, h]
      · right
        exact ⟨q, by rw [← h2, h]⟩
    · rintro (ht | ⟨p, hp⟩)
      · rw [ht] at h2
        exact (List.append_eq_nil.mp h2).2
      · rcases List.eq_nil_or_concat dropped with h | ⟨front, c, h⟩
        · exact h
        · exfalso
          rw [hp, h, List.concat_eq_append, ← List.append_assoc] at h2
          have hc : c = '\n' := by
            have := List.append_inj_right' h2 rfl
            simpa using this
          apply hnl
          rw [h, hc, List.concat_eq_append]
          simp
  refine ⟨kept, dropped, hS, ?_, h2, hnl, flatten_lines_ends _ kept, ?_, hiff, ?_⟩
  · rw [sliceTo_length_pred _ (Split_newline_length_pos t), hS]
    simp
  · intro ht
    by_cases hk : kept = []
    · rw [hk]
      rfl
    · exfalso
      apply ht
      rw [← h2]
      exact List.mem_append_left _ (mem_flatten_lines "\n".toList '\n' (by decide) kept hk)
  · intro hne hend
    refine ⟨?_, ⟨_, h2⟩⟩
    intro hd
    rcases hiff.mp hd with h | h
    · exact hne h
    · exact hend h

/-- C16: for an accepted location record with leading-comment text `t`, the
comment lines retained in the `MessageLocation`, each followed by a line break
and concatenated, are `t` cut just after its last line break (the empty text
when `t` has none), and this is the comment block rendered for the message; the
dropped line is what follows in `t`: it is empty exactly when `t` is empty or
ends with a line break, and otherwise it is the non-empty final line of `t`,
which the output loses. -/
theorem retained_lines_are_text_up_to_last_break (proto : FileDescriptorProto)
    (location : Location) (i : Int) (message : DescriptorProto)
    (hp : location.GetPath = [4, i]) (hm : index proto.GetMessageType i = some message) :
    ∃ kept dropped,
      locationStep proto location =
        some (some { location := location, message := message, comments := kept }) ∧
      Split location.GetLeadingComments "\n".toList = kept ++ [dropped] ∧
      (kept.map (fun line => line ++ "\n".toList)).flatten ++ dropped =
        location.GetLeadingComments ∧
      '\n' ∉ dropped ∧
      ((kept.map (fun line => line ++ "\n".toList)).flatten = [] ∨
        ∃ q, (kept.map (fun line => line ++ "\n".toList)).flatten = q ++ "\n".toList) ∧
      ('\n' ∉ location.GetLeadingComments →
        (kept.map (fun line => line ++ "\n".toList)).flatten = []) ∧
      (dropped = [] ↔ (location.GetLeadingComments = [] ∨
        ∃ p, location.GetLeadingComments = p ++ "\n".toList)) ∧
      (location.GetLeadingComments ≠ [] →
        (¬ ∃ p, location.GetLeadingComments = p ++ "\n".toList) →
        dropped ≠ [] ∧ dropped <:+ location.GetLeadingComments) ∧
      ∀ buf, ∃ rest,
        writeMessage buf { location := location, message := message, comments := kept } =
          some (buf ++ ("\nexport interface ".toList ++ message.GetName ++ " \x7b \n".toList) ++
            "/* Leading Comments\n".toList ++
            (kept.map (fun line => line ++ "\n".toList)).flatten ++
            "*/ \n".toList ++ rest) := by
  obtain ⟨kept, dropped, h1, h2, h3, h4, h5, h6, h7, h8⟩ :=
    Split_newline_kept_dropped location.GetLeadingComments
  refine ⟨kept, dropped, ?_, h1, h3, h4, h5, h6, h7, h8, ?_⟩
  · rw [locationStep_accepted proto location i hp, hm, h1]
    simp
  · intro buf
    rw [writeMessage_eq]
    exact ⟨_, by simp only [List.append_assoc]; rfl⟩

theorem retained_lines_are_text_up_to_last_break_witness :
    (Location.mk [4, 0] (some "first\nlast".toList)).GetPath = [4, 0] ∧
    index (FileDescriptorProto.mk none [DescriptorProto.mk (some "M".toList) [] []]
      none).GetMessageType 0 = some (DescriptorProto.mk (some "M".toList) [] []) ∧
    locationStep (FileDescriptorProto.mk none [DescriptorProto.mk (some "M".toList) [] []] none)
        (Location.mk [4, 0] (some "first\nlast".toList)) =
      some (some { location := Location.mk [4, 0] (some "first\nlast".toList),
                   message := DescriptorProto.mk (some "M".toList) [] [],
                   comments := ["first".toList] }) ∧
    ∃ kept dropped,
      locationStep (FileDescriptorProto.mk none [DescriptorProto.mk (some "M".toList) [] []] none)
          (Location.mk [4, 0] (some "first\nlast".toList)) =
        some (some { location := Location.mk [4, 0] (some "first\nlast".toList),
                     message := DescriptorProto.mk (some "M".toList) [] [],
                     comments := kept }) ∧
      (kept.map (fun line => line ++ "\n".toList)).flatten ++ dropped =
        (Location.mk [4, 0] (some "first\nlast".toList)).GetLeadingComments ∧
      dropped ≠ [] :=
  ⟨rfl, rfl, rfl, by
    obtain ⟨kept, dropped, h1, _, h3, _, _, _, _, h8, _⟩ :=
      retained_lines_are_text_up_to_last_break
        (FileDescriptorProto.mk none [DescriptorProto.mk (some "M".toList) [] []] none)
        (Location.mk [4, 0] (some "first\nlast".toList)) 0
        (DescriptorProto.mk (some "M".toList) [] []) rfl rfl
    refine ⟨kept, dropped, h1, h3, (h8 (by decide) ?_).1⟩
    rintro ⟨p, hp⟩
    have h := congrArg List.getLast? hp
    have hl : ((Location.mk [4, 0] (some "first\nlast".toList)).GetLeadingComments).getLast?
        = some 't' := by decide
    have hr : (p ++ "\n".toList).getLast? = some '\n' := by
      rw [List.getLast?_append]
      rfl
    rw [hl, hr] at h
    exact absurd h (by decide)⟩

theorem withoutNested_GetName (nm : DescriptorProto) :
    nm.withoutNested.GetName = nm.GetName := by
  cases nm; rfl

theorem withoutNested_Field (nm : DescriptorProto) :
    nm.withoutNested.Field = nm.Field := by
  cases nm; rfl

theorem oneLevel_GetName (m : DescriptorProto) : m.oneLevel.GetName = m.GetName := by
  cases m; rfl

theorem oneLevel_Field (m : DescriptorProto) : m.oneLevel.Field = m.Field := by
  cases m; rfl

theorem oneLevel_NestedType (m : DescriptorProto) :
    m.oneLevel.NestedType = m.NestedType.map DescriptorProto.withoutNested := by
  cases m; rfl

theorem writeMessage_oneLevel (lm : MessageLocation) (buf : Str) :
    writeMessage buf lm.oneLevel = writeMessage buf lm := by
  rw [writeMessage_eq, writeMessage_eq]
  simp only [MessageLocation.oneLevel, oneLevel_GetName, oneLevel_Field, oneLevel_NestedType,
    List.length_map, List.map_map, Function.comp_def, withoutNested_GetName,
    withoutNested_Field]

theorem writeMessages_oneLevel : ∀ (messages : List MessageLocation) (buf : Str),
    writeMessages buf (messages.map MessageLocation.oneLevel) = writeMessages buf messages := by
  intro messages
  induction messages with
  | nil => intro buf; rfl
  | cons lm rest ih =>
    intro buf
    simp only [List.map_cons, writeMessages, writeMessage_oneLevel]
    cases writeMessage buf lm with
    | none => rfl
    | some b => simp only [Option.bind_eq_bind, Option.some_bind, ih]

theorem createTSFile_oneLevel (response : CodeGeneratorResponse) (filename : Str)
    (messages : List MessageLocation) :
    createTSFile response filename (messages.map MessageLocation.oneLevel) =
      createTSFile response filename messages := by
  rw [createTSFile, createTSFile, writeMessages_oneLevel]

/-- C17: `createTSFile` descends exactly one level of nesting: two lists of
message locations that are equal once everything nested inside a nested message
is removed give the same response, hence the same file content; in particular a
list and the same list cut below the nested messages render alike. -/
theorem createTSFile_ignores_deeper_nesting (response : CodeGeneratorResponse)
    (filename : Str) (messages₁ messages₂ : List MessageLocation)
    (h : messages₁.map MessageLocation.oneLevel = messages₂.map MessageLocation.oneLevel) :
    createTSFile response filename messages₁ = createTSFile response filename messages₂ ∧
    createTSFile response filename (messages₁.map MessageLocation.oneLevel) =
      createTSFile response filename messages₁ := by
  refine ⟨?_, createTSFile_oneLevel response filename messages₁⟩
  rw [← createTSFile_oneLevel response filename messages₁,
    ← createTSFile_oneLevel response filename messages₂, h]

theorem createTSFile_ignores_deeper_nesting_witness :
    [MessageLocation.mk ⟨[4, 0], none⟩
        (.mk (some "P".toList) []
          [.mk (some "N".toList) []
            [.mk (some "Deep".toList) [⟨some "x".toList, none, some .TYPE_STRING, none⟩] []]])
        []].map MessageLocation.oneLevel =
      [MessageLocation.mk ⟨[4, 0], none⟩
        (.mk (some "P".toList) [] [.mk (some "N".toList) [] []]) []].map
        MessageLocation.oneLevel ∧
    createTSFile ⟨[]⟩ "p.proto".toList
      [MessageLocation.mk ⟨[4, 0], none⟩
        (.mk (some "P".toList) []
          [.mk (some "N".toList) []
            [.mk (some "Deep".toList) [⟨some "x".toList, none, some .TYPE_STRING, none⟩] []]])
        []] =
    createTSFile ⟨[]⟩ "p.proto".toList
      [MessageLocation.mk ⟨[4, 0], none⟩
        (.mk (some "P".toList) [] [.mk (some "N".toList) [] []]) []] :=
  ⟨rfl, (createTSFile_ignores_deeper_nesting ⟨[]⟩ "p.proto".toList _ _ rfl).1⟩

theorem createdContent_eq (filename : Str) (messages : List MessageLocation) :
    createdContent filename messages = some (headerLine filename ++
      (messages.map (fun lm => (writeMessage [] lm).getD [])).flatten) := by
  rw [createdContent, createTSFile_render]
  simp [headerLine]

/-- C18: the content rendered by `createTSFile` is the header line followed by
the renderings of the messages in input order, the rendering of a message being
a function of that message location alone: the content for `ms1 ++ ms2` is the
content for `ms1` followed by the content for `ms2` without its header line,
and the content for no message is the header line. -/
theorem createTSFile_content_is_concatenation :
    ∃ render : MessageLocation → Str,
      (∀ lm buf, writeMessage buf lm = some (buf ++ render lm)) ∧
      (∀ response filename messages, createTSFile response filename messages = some
        { file := response.file ++
            [{ name := some (Replace filename ".proto".toList ".ts".toList),
               content := some (headerLine filename ++ (messages.map render).flatten) }] }) ∧
      (∀ filename messages, createdContent filename messages =
        some (headerLine filename ++ (messages.map render).flatten)) ∧
      (∀ filename, createdContent filename [] = some (headerLine filename)) ∧
      ∀ filename ms1 ms2, ∃ c1 c2,
        createdContent filename ms1 = some c1 ∧
        createdContent filename ms2 = some c2 ∧
        createdContent filename (ms1 ++ ms2) = some (c1 ++ c2.drop (headerLine filename).length) := by
  refine ⟨fun lm => (writeMessage [] lm).getD [], fun lm buf => writeMessage_render lm buf,
    ?_, createdContent_eq, ?_, ?_⟩
  · intro response filename messages
    rw [createTSFile_render]
    rfl
  · intro filename
    rw [createdContent_eq]
    simp
  · intro filename ms1 ms2
    refine ⟨_, _, createdContent_eq filename ms1, createdContent_eq filename ms2, ?_⟩
    rw [createdContent_eq, List.drop_left]
    simp only [List.map_append, List.flatten_append, List.append_assoc]

theorem fileMessageLocations_no_accepted (proto : FileDescriptorProto)
    (hno : ∀ location ∈ proto.GetLocations,
      ¬ (location.GetPath.length = 2 ∧ location.GetPath[0]? = some 4)) :
    fileMessageLocations proto = some [] := by
  have hcomp : ∃ r, locationLoop proto proto.GetLocations [] = some r := by
    rw [locationLoop_completes_iff]
    intro location hl i hi
    exact absurd ((path_shape_iff _).mpr ⟨i, hi⟩) (hno location hl)
  obtain ⟨r, hr⟩ := hcomp
  obtain ⟨news, h1, h2⟩ := locationLoop_spec proto _ _ _ hr
  have hfilter : proto.GetLocations.filter
      (fun l => decide (l.GetPath.length = 2 ∧ l.GetPath[0]? = some 4)) = [] := by
    rw [List.filter_eq_nil_iff]
    intro l hl hd
    exact hno l hl (of_decide_eq_true hd)
  rw [hfilter] at h2
  cases h2
  rw [fileMessageLocations, hr, h1]
  rfl

/-- Facts about the descriptor that the loop reads.  The number of
`MessageLocation`s built from a descriptor is the number of its accepted records
(path of length 2 starting with 4).  For a descriptor without any accepted
record no `MessageLocation` is built, the file rendered from none is the header
line, and a run on a request with pairwise distinct names that reads this
descriptor at the position `k` of the name `filename` answers with that file. -/
theorem descriptor_without_accepted_record (proto : FileDescriptorProto) :
    (∀ mls, fileMessageLocations proto = some mls →
      mls.length = (proto.GetLocations.filter
        (fun l => decide (l.GetPath.length = 2 ∧ l.GetPath[0]? = some 4))).length) ∧
    ((∀ location ∈ proto.GetLocations,
        ¬ (location.GetPath.length = 2 ∧ location.GetPath[0]? = some 4)) →
      fileMessageLocations proto = some [] ∧
      (∀ response filename, createTSFile response filename [] = some
        { file := response.file ++
            [{ name := some (Replace filename ".proto".toList ".ts".toList),
               content := some ("// ".toList ++ Replace filename ".proto".toList ".ts".toList ++
                 "\n".toList) }] }) ∧
      ∀ (request : CodeGeneratorRequest) (response response' : CodeGeneratorResponse)
        (k : Nat) (filename : Str),
        request.fileToGenerate.Nodup →
        request.fileToGenerate[k]? = some filename →
        request.protoFile[k]? = some proto →
        GenerateCode request response response' →
        ({ name := some (Replace filename ".proto".toList ".ts".toList),
           content := some ("// ".toList ++ Replace filename ".proto".toList ".ts".toList ++
             "\n".toList) } : ResponseFile) ∈ response'.file) := by
  refine ⟨?_, ?_⟩
  · intro mls h
    obtain ⟨news, h1, h2⟩ := locationLoop_spec proto _ _ _ h
    simp only [List.nil_append] at h1
    rw [h1, h2.length_eq]
  · intro hno
    have hempty := fileMessageLocations_no_accepted proto hno
    refine ⟨hempty, ?_, ?_⟩
    · intro response filename
      rw [createTSFile_render]
      simp
    · intro request response response' k filename hnodup hname hproto hrun
      obtain ⟨m, order, hm, hord, hgen⟩ := hrun
      obtain ⟨entries, he1, he2, he3⟩ :=
        getMessageLocationLoop_entries request request.fileToGenerate 0 [] m hnodup
          (by simp) hm
      simp only [List.nil_append] at he1
      subst he1
      have hk : (m.map Prod.fst)[k]? = some filename := by rw [he2]; exact hname
      rw [List.getElem?_map] at hk
      cases hmk : m[k]? with
      | none => rw [hmk] at hk; cases hk
      | some e =>
        obtain ⟨name, lms⟩ := e
        rw [hmk] at hk
        simp only [Option.map_some', Option.some.injEq] at hk
        subst hk
        obtain ⟨proto', hp', hf'⟩ := he3 k name lms hmk
        rw [Nat.zero_add, hproto] at hp'
        have hpp := Option.some.inj hp'
        subst hpp
        rw [hempty] at hf'
        have hl := Option.some.inj hf'
        subst hl
        rw [generateCode_files request response m order hm] at hgen
        rw [← Option.some.inj hgen]
        have hperm := visitingOrder_perm (m.map (fun e =>
          ({ name := some (Replace e.1 ".proto".toList ".ts".toList),
             content := some ("// ".toList ++ Replace e.1 ".proto".toList ".ts".toList ++
               "\n".toList ++ (e.2.map (fun lm => (writeMessage [] lm).getD [])).flatten) }
            : ResponseFile))) order (by rw [List.length_map]; exact hord)
        rw [hperm.mem_iff, List.mem_map]
        exact ⟨(name, []), List.getElem?_mem hmk, by simp⟩

/-- C19 (the code at the failing input): `b.proto` is requested, none of its
location records has a path of length 2 starting with 4, and `ProtoFile` lists
the imported `a.proto` before it.  From the descriptor named `b.proto` no
`MessageLocation` is built and the file rendered from none is the header line
alone; but the run of `generateCode` reads the descriptor at position 0, and
`b.ts` declares the interface `A`. -/
theorem header_expected_but_import_rendered :
    enumOnlyImportRequest.fileToGenerate = ["b.proto".toList] ∧
    enumOnlyImportRequest.protoFile.map (fun p => p.name) =
      [some "a.proto".toList, some "b.proto".toList] ∧
    enumOnlyImportRequest.protoFile[1]? = some enumOnlyProto ∧
    enumOnlyProto.GetLocations.filter
      (fun l => decide (l.GetPath.length = 2 ∧ l.GetPath[0]? = some 4)) = [] ∧
    fileMessageLocations enumOnlyProto = some [] ∧
    createTSFile ⟨[]⟩ "b.proto".toList [] =
      some ⟨[⟨some "b.ts".toList, some "// b.ts\n".toList⟩]⟩ ∧
    generateCode enumOnlyImportRequest ⟨[]⟩ [0] = some
      ⟨[⟨some "b.ts".toList,
         some ("// b.ts\n" ++ "\nexport interface A \x7b \n" ++ "/* Leading Comments\n" ++
           "about A\n" ++ "*/ \n" ++ "\x7d\n").toList⟩]⟩ ∧
    GenerateCode enumOnlyImportRequest ⟨[]⟩
      ⟨[⟨some "b.ts".toList,
         some ("// b.ts\n" ++ "\nexport interface A \x7b \n" ++ "/* Leading Comments\n" ++
           "about A\n" ++ "*/ \n" ++ "\x7d\n").toList⟩]⟩ ∧
    ("// b.ts\n" ++ "\nexport interface A \x7b \n" ++ "/* Leading Comments\n" ++
      "about A\n" ++ "*/ \n" ++ "\x7d\n").toList ≠ "// b.ts\n".toList :=
  ⟨rfl, rfl, rfl, rfl, rfl, rfl, by decide, ⟨_, [0], rfl, by decide, by decide⟩, by decide⟩

end TSDef
